import Mathlib

/-!
# Verification of the datagrind Recorder/Analyzer core

A shallow embedding of the datagrind sources (`dg_main.c`, `dg_view.cpp`,
`dg_view_parse.cpp`, `dg_view_range.h`) in Lean 4, together with theorems
settling the specification claims about them.

Conventions:
* `HWord` values are modelled as `ℕ`; the host word is 8 bytes / 64 bits
  (`dg_view.h`, which defines `HWord`, is a build header; the spec fixes the
  width to the guest pointer width, typically 8 bytes).  Where C arithmetic
  can wrap, the embedding reduces modulo `2 ^ 64` explicitly.
* Bytes are `ℕ` values (< 256 in any real trace).
* C++ exceptions become `Except` values; the exception class hierarchy of
  `dg_view_parse.h` is reproduced by the `RecErr` type and its
  `isContent` classifier (`record_parser_content_error` and its subclasses
  answer `true`, the base `record_parser_error` and the stream errors
  answer `false`).
-/

namespace Datagrind

/-- Bytes per `HWord` on the analyzer host (`sizeof(HWord)` = 8). -/
def wordsize : ℕ := 8

/-- The `HWord` modulus: arithmetic on `HWord` wraps at `2 ^ 64`. -/
def hwordMod : ℕ := 2 ^ 64

/-- Record-type tags from `dg_record.h`. -/
def DG_R_HEADER : ℕ := 0
def DG_R_TRACK_RANGE : ℕ := 3
def DG_R_UNTRACK_RANGE : ℕ := 4
def DG_R_START_EVENT : ℕ := 5
def DG_R_END_EVENT : ℕ := 6
def DG_R_TEXT_AVMA : ℕ := 8

/-- Modelled from the spec: the tags `DG_R_BBDEF`, `DG_R_CONTEXT`,
`DG_R_BBRUN`, `DG_R_MALLOC_BLOCK` and `DG_R_FREE_BLOCK` are defined in
`dg_view.h`, which is not among the provided sources; the spec's record
table leaves their one-byte values unspecified.  They are modelled as the
next five distinct tag bytes after the `dg_record.h` block; every theorem
below depends only on their being pairwise distinct, below `0x80` and
different from the `dg_record.h` tags. -/
def DG_R_BBDEF : ℕ := 9
def DG_R_CONTEXT : ℕ := 10
def DG_R_BBRUN : ℕ := 11
def DG_R_MALLOC_BLOCK : ℕ := 12
def DG_R_FREE_BLOCK : ℕ := 13

/-- Little-endian value of a byte list (the analyzer host is little-endian:
`fread` into a `uint64_t`/`HWord` reads the bytes in memory order). -/
def leWord (bs : List ℕ) : ℕ := bs.foldr (fun b acc => b + 256 * acc) 0

/-! ## Exceptions of `dg_view_parse.h` -/

/-- The exception hierarchy of `dg_view_parse.h` together with the two
ad-hoc `record_parser_error` throws in `dg_view.cpp`'s `load` and the
`std::invalid_argument` thrown by `rangemap::insert`. -/
inductive RecErr : Type
  /-- `record_parser_error("Record is too short")` from `extract_bytes`. -/
  | tooShort
  /-- `record_parser_feof` (premature EOF). -/
  | feof
  /-- `record_parser_ferror` (I/O failure). -/
  | ferror
  /-- `record_parser_error("Error: did not find header")`. -/
  | notHeader
  /-- `record_parser_error("Error: did not find signature")`. -/
  | badMagic
  /-- `record_parser_string_error` ("string was not terminated"). -/
  | stringTerm
  /-- `record_parser_length_error` ("Record is too large") from `finish`. -/
  | tooLarge
  /-- one of the `record_parser_content_error` throws in `load`
  (header after first record, empty BB, iseq out of range, empty call
  stack, bbdef/context index out of range, too many access addresses,
  unknown record type, pointer size mismatch). -/
  | content
  deriving DecidableEq, Repr

/-- Which exceptions are `record_parser_content_error` (or a subclass):
these are the ones `load`'s first catch handler recovers from. -/
def RecErr.isContent : RecErr → Bool
  | .stringTerm => true
  | .tooLarge => true
  | .content => true
  | _ => false

/-! ## `record_parser` (`dg_view_parse.cpp`)

The parser state is the record's declared `size`, the current `offset`
within the record, and the remaining bytes of the file (`FILE *` position).
-/

structure RecordParser : Type where
  size : ℕ
  offset : ℕ
  rest : List ℕ
  deriving Repr, DecidableEq

/-- `record_parser::extract_bytes`: refuses to read past the record's
declared length (throwing the *base* `record_parser_error`), then reads
from the file (premature EOF is `record_parser_feof`). -/
def extract_bytes (rp : RecordParser) (len : ℕ) : Except RecErr (List ℕ × RecordParser) :=
  if rp.size - rp.offset < len then .error .tooShort
  else if rp.rest.length < len then .error .feof
  else .ok (rp.rest.take len,
            ⟨rp.size, rp.offset + len, rp.rest.drop len⟩)

/-- `record_parser::extract_byte`. -/
def extract_byte (rp : RecordParser) : Except RecErr (ℕ × RecordParser) :=
  match extract_bytes rp 1 with
  | .error e => .error e
  | .ok (bs, rp') => .ok (bs.headD 0, rp')

/-- `record_parser::extract_word` (8 bytes, little-endian host). -/
def extract_word (rp : RecordParser) : Except RecErr (ℕ × RecordParser) :=
  match extract_bytes rp wordsize with
  | .error e => .error e
  | .ok (bs, rp') => .ok (leWord bs, rp')

/-- `record_parser::extract_string`: bytes until a NUL, not running past
the record length; reaching the record length without a terminator is a
`record_parser_string_error` (content). The `fuel` argument bounds the
loop by `size - offset`. -/
def extract_string_go (rp : RecordParser) (acc : List ℕ) :
    (fuel : ℕ) → Except RecErr (List ℕ × RecordParser)
  | 0 => .error .stringTerm
  | fuel + 1 =>
    if rp.offset < rp.size then
      match extract_byte rp with
      | .error e => .error e
      | .ok (b, rp') =>
        if b = 0 then .ok (acc.reverse, rp')
        else extract_string_go rp' (b :: acc) fuel
    else .error .stringTerm

def extract_string (rp : RecordParser) : Except RecErr (List ℕ × RecordParser) :=
  extract_string_go rp [] (rp.size - rp.offset + 1)

/-- `record_parser::remain`. -/
def RecordParser.remain (rp : RecordParser) : ℕ := rp.size - rp.offset

/-- `record_parser::discard`: consume the rest of the record from the
file (the C code reads it in chunks of at most 64 bytes; the net effect
modelled here is identical).  Premature EOF is `record_parser_feof`. -/
def RecordParser.discard (rp : RecordParser) : Except RecErr RecordParser :=
  let todo := rp.size - rp.offset
  if rp.rest.length < todo then .error .feof
  else .ok ⟨rp.size, rp.size, rp.rest.drop todo⟩

/-- `record_parser::finish`: if bytes remain, discard them and throw the
(content) `record_parser_length_error`. -/
def RecordParser.finish (rp : RecordParser) : Except RecErr RecordParser :=
  if rp.offset = rp.size then .ok rp
  else
    match rp.discard with
    | .error e => .error e
    | .ok _ => .error .tooLarge

/-- `record_parser::create`: read the type byte (EOF here is the normal
end of the stream, `none`); a type ≥ 0x80 carries no length prefix and
has body size 1; otherwise a one-byte prefix follows, and the prefix 255
means the true length follows as an 8-byte (little-endian host) `u64`. -/
def record_parser_create (file : List ℕ) :
    Except RecErr (Option (ℕ × RecordParser)) :=
  match file with
  | [] => .ok none
  | ty :: rest =>
    if 0x80 ≤ ty then .ok (some (ty, ⟨1, 0, rest⟩))
    else
      match rest with
      | [] => .error .feof
      | szb :: rest' =>
        if szb < 255 then .ok (some (ty, ⟨szb, 0, rest'⟩))
        else if rest'.length < 8 then .error .ferror
        else .ok (some (ty, ⟨leWord (rest'.take 8), 0, rest'.drop 8⟩))

/-! ## OutputBuffer (`dg_main.c`: `out_flush` / `out_bytes`)

The Recorder's output state: the number of buffered bytes and the bytes
already flushed to the sink.  The buffer content itself is tracked as a
function so that the extent of each `memcpy` is visible.
-/

/-- `OUT_BUF_SIZE`. -/
def OUT_BUF_SIZE : ℕ := 4096

/-- The half-open index interval of `out_buf` written by the `memcpy` in
one `out_bytes(buf, count)` call, starting from `used` buffered bytes:
when `count` exceeds the remaining capacity the buffer is flushed first
(`out_buf_used = 0`), and then `count` bytes are copied starting there
unconditionally. -/
def out_bytes_writes (used count : ℕ) : ℕ × ℕ :=
  if OUT_BUF_SIZE - used < count then (0, count) else (used, used + count)

/-- `out_buf_used` after one `out_bytes(buf, count)` call. -/
def out_bytes_used (used count : ℕ) : ℕ :=
  (out_bytes_writes used count).2

/-! ## BBDefBuilder (`dg_main.c`: `dg_bbdef_*`)

The Recorder's current BBDef: the instruction vector (address, length
pairs) and the access vector.  `tl_assert` failures are modelled as
`none`.
-/

structure DgBBDefAccess : Type where
  dir : ℕ
  size : ℕ
  iseq : ℕ
  deriving Repr, DecidableEq

structure DgBBDef : Type where
  instrs : List (ℕ × ℕ)
  accesses : List DgBBDefAccess
  deriving Repr, DecidableEq

/-- `dg_bbdef_flush`: emit the BBDEF record (its instruction and access
vectors) unless the builder is empty, and reset the builder. -/
def dg_bbdef_flush (bbd : DgBBDef) : Option DgBBDef × DgBBDef :=
  if bbd.instrs.length = 0 then (none, bbd)
  else (some bbd, ⟨[], []⟩)

/-- `dg_bbdef_add_instr`: when the builder already holds 255 instructions
it is flushed and a fresh builder begun (`dg_bbdef_new`); then the new
instruction is appended.  The `tl_assert(size <= 255)` is modelled as
`none`.  Returns the emitted BBDEF record (if a flush happened) and the
new builder. -/
def dg_bbdef_add_instr (bbd : DgBBDef) (addr size : ℕ) :
    Option (Option DgBBDef × DgBBDef) :=
  let fl : Option DgBBDef × DgBBDef :=
    if bbd.instrs.length = 255 then dg_bbdef_flush bbd else (none, bbd)
  if 255 < size then none
  else some (fl.1, ⟨fl.2.instrs ++ [(addr, size)], fl.2.accesses⟩)

/-- `dg_bbdef_add_access`: append an access whose `iseq` is the index of
the last instruction; `tl_assert(n_instrs > 0)` and
`tl_assert(size <= 255)` are modelled as `none`. -/
def dg_bbdef_add_access (bbd : DgBBDef) (dir size : ℕ) : Option DgBBDef :=
  if bbd.instrs.length = 0 then none
  else if 255 < size then none
  else some ⟨bbd.instrs, bbd.accesses ++ [⟨dir, size, bbd.instrs.length - 1⟩]⟩

/-- The instrumentation events `dg_instrument` feeds the builder:
instruction marks (`Ist_IMark` → `dg_bbdef_add_instr`) and memory
operations (`dg_bbdef_add_access`). -/
inductive BuildOp : Type
  | instr (addr size : ℕ)
  | access (dir size : ℕ)
  deriving Repr, DecidableEq

/-- The builder loop of `dg_instrument` over one superblock, collecting
the emitted BBDEF records in order; at the end of the superblock
`dg_bbdef_update_instrs` (whose `tl_assert(n_instrs > 0)` requires a
nonempty builder) runs and the final builder is flushed. -/
def buildSB_go : List BuildOp → DgBBDef → Option (List DgBBDef)
  | [], bbd =>
    if bbd.instrs.length = 0 then none
    else some [(dg_bbdef_flush bbd).1.getD ⟨[], []⟩]
  | op :: ops, bbd =>
    match op with
    | .instr a s =>
      match dg_bbdef_add_instr bbd a s with
      | none => none
      | some (none, bbd') => buildSB_go ops bbd'
      | some (some e, bbd') =>
        match buildSB_go ops bbd' with
        | none => none
        | some out => some (e :: out)
    | .access d s =>
      match dg_bbdef_add_access bbd d s with
      | none => none
      | some bbd' => buildSB_go ops bbd'

/-- One superblock's instrumentation starting from a fresh builder
(`dg_bbdef_new`): the list of BBDEF records emitted. -/
def buildSB (ops : List BuildOp) : Option (List DgBBDef) :=
  buildSB_go ops ⟨[], []⟩

/-! ## RangeMap (`dg_view_range.h`)

`rangemap<Address, Data>` is a `std::multimap<(start, end), Data>`;
modelled as a list of entries in the multimap's key order (lexicographic
on the `(start, end)` pair).
-/

/-- Strict lexicographic order on `(start, end)` keys
(`std::pair::operator<`). -/
def keyLt (k1 k2 : ℕ × ℕ) : Bool :=
  k1.1 < k2.1 ∨ (k1.1 = k2.1 ∧ k1.2 < k2.2)

/-- A rangemap: entries in multimap key order. -/
abbrev Rangemap (V : Type) : Type := List ((ℕ × ℕ) × V)

/-- `std::multimap::insert` places the new entry after all entries whose
key is ≤ its key. -/
def rangemap_insert_at {V : Type} (m : Rangemap V) (a b : ℕ) (v : V) : Rangemap V :=
  m.takeWhile (fun e => !keyLt (a, b) e.1) ++ ((a, b), v) ::
    m.dropWhile (fun e => !keyLt (a, b) e.1)

/-- The predecessor-overlap check of `rangemap::insert` followed by the
actual insertion. -/
def rangemap_insert_low {V : Type} (m : Rangemap V) (a b : ℕ) (v : V)
    (before : Rangemap V) : Except Unit (Rangemap V) :=
  match before.getLast? with
  | some l => if a < l.1.2 then .error () else .ok (rangemap_insert_at m a b v)
  | none => .ok (rangemap_insert_at m a b v)

/-- `rangemap::insert`: throws (`.error`) `std::invalid_argument` when
the range has negative length (`a > b`) or when the `lower_bound`
neighbour on either side overlaps; otherwise inserts at the multimap
position. -/
def rangemap_insert {V : Type} (m : Rangemap V) (a b : ℕ) (v : V) :
    Except Unit (Rangemap V) :=
  if b < a then .error ()
  else
    let before := m.takeWhile (fun e => keyLt e.1 (a, b))
    let after := m.dropWhile (fun e => keyLt e.1 (a, b))
    match after.head? with
    | some e => if e.1.1 < b then .error () else rangemap_insert_low m a b v before
    | none => rangemap_insert_low m a b v before

/-- The `--next` predecessor probe of `rangemap::find`. -/
def rangemap_find_pred {V : Type} (before : Rangemap V) (addr : ℕ) :
    Option ((ℕ × ℕ) × V) :=
  match before.getLast? with
  | some l => if l.1.1 ≤ addr ∧ addr < l.1.2 then some l else none
  | none => none

/-- `rangemap::find(addr)`: `upper_bound((addr, addr))`, returned if its
start equals `addr`, else the predecessor if it contains `addr`. -/
def rangemap_find {V : Type} (m : Rangemap V) (addr : ℕ) : Option ((ℕ × ℕ) × V) :=
  let before := m.takeWhile (fun e => !keyLt (addr, addr) e.1)
  let after := m.dropWhile (fun e => !keyLt (addr, addr) e.1)
  match after.head? with
  | some e =>
    if e.1.1 = addr then some e else rangemap_find_pred before addr
  | none => rangemap_find_pred before addr

/-- `rangemap::erase(addr)`: erase the consecutive run of entries at
`lower_bound((addr, addr))` whose start equals `addr`. -/
def rangemap_erase {V : Type} (m : Rangemap V) (addr : ℕ) : Rangemap V :=
  m.takeWhile (fun e => keyLt e.1 (addr, addr)) ++
    (m.dropWhile (fun e => keyLt e.1 (addr, addr))).dropWhile (fun e => e.1.1 = addr)

/-! ## PageRemap (`dg_view.cpp`: `page_map` / `remap_address`)

`page_map` is a `std::map<HWord, size_t>`: its keys are kept in ascending
order with no duplicates; modelled as a sorted, duplicate-free key list
plus the slot-assignment pass that `load` runs after parsing.
-/

/-- `DG_VIEW_PAGE_SIZE`. -/
def DG_VIEW_PAGE_SIZE : ℕ := 4096

/-- `page_round_down`: `x & ~(DG_VIEW_PAGE_SIZE - 1)`, i.e. clear the low
12 bits of the (unsigned) address. -/
def page_round_down (x : ℕ) : ℕ := x - x % DG_VIEW_PAGE_SIZE

/-- `page_map[k] = 0`: `std::map::operator[]` inserts the key if absent
(value irrelevant until the assignment pass). -/
def mapInsertKey (k : ℕ) : List ℕ → List ℕ
  | [] => [k]
  | x :: xs =>
    if k < x then k :: x :: xs
    else if k = x then x :: xs
    else x :: mapInsertKey k xs

/-- The slot-assignment loop at the end of `load`: walk the map in key
order, giving each page the next `remapped_base` and advancing it by
`DG_VIEW_PAGE_SIZE`. -/
def assignSlots (base : ℕ) : List ℕ → List (ℕ × ℕ)
  | [] => []
  | k :: ks => (k, base) :: assignSlots (base + DG_VIEW_PAGE_SIZE) ks

/-- The finished `page_map`: pages in ascending order, each with its
dense slot base. -/
def page_map_of (keys : List ℕ) : List (ℕ × ℕ) := assignSlots 0 keys

/-- `std::map::find` on the assigned map. -/
def mapFind (m : List (ℕ × ℕ)) (k : ℕ) : Option ℕ :=
  (m.find? (fun e => e.1 = k)).map (·.2)

/-- The key set `page_map` accumulates during `load`: one
`page_map[page_round_down(addr)] = 0` per kept access address. -/
def observedPages (addrs : List ℕ) : List ℕ :=
  addrs.foldl (fun ks x => mapInsertKey (page_round_down x) ks) []

/-- `remap_address`: `(a - base) + page_map[base]`; the
`assert(it != page_map.end())` is modelled by `Option`. -/
def remap_address (m : List (ℕ × ℕ)) (a : ℕ) : Option ℕ :=
  (mapFind m (page_round_down a)).map (fun v => (a - page_round_down a) + v)

/-! ## Analyzer data model (`dg_view.cpp` structs) -/

/-- `struct bbdef` (the instruction sizes are discarded at load). -/
structure Bbdef : Type where
  instr_addrs : List ℕ
  accesses : List DgBBDefAccess
  deriving Repr, DecidableEq

/-- `struct context`. -/
structure Context : Type where
  bbdef_index : ℕ
  stack : List ℕ
  deriving Repr, DecidableEq

/-- `struct bbrun`; `n_addrs` is `addrs.length`, and `blocks` holds
indices into `block_storage` (`mem_block *` pointers). -/
structure Bbrun : Type where
  iseq_start : ℕ
  dseq_start : ℕ
  context_index : ℕ
  addrs : List ℕ
  blocks : List (Option ℕ)
  deriving Repr, DecidableEq

/-- `struct mem_block`. -/
structure MemBlock : Type where
  addr : ℕ
  size : ℕ
  stack : List ℕ
  deriving Repr, DecidableEq

/-- The analyzer's command-line selection (`chosen_events`,
`chosen_ranges`, `--malloc-only`); labels are byte strings. -/
structure LoadOpts : Type where
  chosenEvents : List (List ℕ)
  chosenRanges : List (List ℕ)
  mallocOnly : Bool
  deriving Repr, DecidableEq

/-- The analyzer's mutable state during `load`. -/
structure LoadState : Type where
  first : Bool
  bbdefs : List Bbdef
  contexts : List Context
  bbruns : List Bbrun
  activeEvents : List (List ℕ)
  activeRanges : List (ℕ × ℕ)
  pageKeys : List ℕ
  blockMap : Rangemap ℕ
  blockStorage : List MemBlock
  iseq : ℕ
  dseq : ℕ
  deriving Repr, DecidableEq

/-- The state at `load` entry. -/
def initState : LoadState :=
  ⟨true, [], [], [], [], [], [], [], [], 0, 0⟩

/-- `find_block`: look the address up in `block_map`. -/
def find_block (blockMap : Rangemap ℕ) (addr : ℕ) : Option ℕ :=
  (rangemap_find blockMap addr).map (·.2)

/-- `keep_access` (`dg_view.cpp`): the event filter, then the range
filter (the address arithmetic is `HWord` arithmetic, wrapping at
`2 ^ 64`), then the `--malloc-only` filter. -/
def keep_access (opts : LoadOpts) (activeEvents : List (List ℕ))
    (activeRanges : List (ℕ × ℕ)) (blockMap : Rangemap ℕ)
    (addr size : ℕ) : Bool :=
  let matched : Bool :=
    if opts.chosenEvents ≠ [] ∧ activeEvents = [] then false
    else if opts.chosenRanges ≠ [] then
      activeRanges.any (fun r =>
        decide (r.1 < (addr + size) % hwordMod ∧ addr < (r.1 + r.2) % hwordMod))
    else true
  if matched ∧ opts.mallocOnly ∧ find_block blockMap addr = none then false
  else matched

/-- The `DG_R_TRACK_RANGE` case of `load`: a range is added to
`active_ranges` only when its label was chosen.  (`active_ranges` is a
`std::multiset`; a list models it up to ordering, which no query
observes.) -/
def track_range_update (chosenRanges : List (List ℕ))
    (active : List (ℕ × ℕ)) (addr size : ℕ) (label : List ℕ) : List (ℕ × ℕ) :=
  if chosenRanges.contains label then (addr, size) :: active else active

/-- The `DG_R_UNTRACK_RANGE` case: erase one occurrence of the pair. -/
def untrack_range_update (active : List (ℕ × ℕ)) (addr size : ℕ) : List (ℕ × ℕ) :=
  active.erase (addr, size)

/-! ## `load` (`dg_view.cpp`): record processing -/

/-- A body-processing error: either one of the `record_parser` exception
classes, or the `std::invalid_argument` thrown by `rangemap::insert`
(which none of `load`'s handlers catches). -/
inductive BodyErr : Type
  | pe (e : RecErr)
  | invalidArg
  deriving Repr, DecidableEq

/-- How a run of `load` can fail: `exit(1)` from the
`record_parser_error` handler (or the stream errors thrown by
`record_parser::create`), or an uncaught exception
(`std::invalid_argument`, or an exception thrown while the content-error
handler itself runs), which terminates the process abnormally. -/
inductive LoadFatal : Type
  | exit1 (e : RecErr)
  | uncaught
  deriving Repr, DecidableEq

/-- Success or error carrying the state and parser position reached when
the exception was thrown (C++ side effects before a throw persist). -/
abbrev BodyResult : Type :=
  Except (BodyErr × LoadState × RecordParser) (LoadState × RecordParser)

/-- `"DATAGRIND1"` as bytes. -/
def dgMagic : List ℕ := [0x44, 0x41, 0x54, 0x41, 0x47, 0x52, 0x49, 0x4E, 0x44, 0x31]

/-- The first-record branch of `load`: header validation.  A missing
header or bad magic throws the *base* `record_parser_error`; a version
mismatch is only a warning; a pointer-size mismatch throws
`record_parser_content_error`. -/
def load_header (st : LoadState) (ty : ℕ) (rp : RecordParser) : BodyResult :=
  if ty ≠ DG_R_HEADER then .error (.pe .notHeader, st, rp)
  else
    match extract_string rp with
    | .error e => .error (.pe e, st, rp)
    | .ok (magic, rp) =>
      if magic ≠ dgMagic then .error (.pe .badMagic, st, rp)
      else
        match extract_byte rp with
        | .error e => .error (.pe e, st, rp)
        | .ok (_version, rp) =>
          match extract_byte rp with
          | .error e => .error (.pe e, st, rp)
          | .ok (_endian, rp) =>
            match extract_byte rp with
            | .error e => .error (.pe e, st, rp)
            | .ok (ws, rp) =>
              if ws ≠ wordsize then .error (.pe .content, st, rp)
              else .ok ({ st with first := false }, rp)

/-- The `DG_R_BBDEF` instruction loop: `n` times, read a word (the
instruction address) and discard a byte (the size). -/
def read_instr_addrs (rp : RecordParser) (acc : List ℕ) :
    ℕ → Except RecErr (List ℕ × RecordParser)
  | 0 => .ok (acc.reverse, rp)
  | n + 1 =>
    match extract_word rp with
    | .error e => .error e
    | .ok (a, rp) =>
      match extract_byte rp with
      | .error e => .error e
      | .ok (_, rp) => read_instr_addrs rp (a :: acc) n

/-- The `DG_R_BBDEF` access loop: `n` times, read `dir`, `size`, `iseq`
bytes, rejecting (content error) an `iseq` not below `n_instrs`. -/
def read_accesses (rp : RecordParser) (n_instrs : ℕ) (acc : List DgBBDefAccess) :
    ℕ → Except RecErr (List DgBBDefAccess × RecordParser)
  | 0 => .ok (acc.reverse, rp)
  | n + 1 =>
    match extract_byte rp with
    | .error e => .error e
    | .ok (dir, rp) =>
      match extract_byte rp with
      | .error e => .error e
      | .ok (size, rp) =>
        match extract_byte rp with
        | .error e => .error e
        | .ok (iseq, rp) =>
          if n_instrs ≤ iseq then .error .content
          else read_accesses rp n_instrs (⟨dir, size, iseq⟩ :: acc) n

/-- The `DG_R_CONTEXT` stack loop: read `n` words. -/
def read_words (rp : RecordParser) (acc : List ℕ) :
    ℕ → Except RecErr (List ℕ × RecordParser)
  | 0 => .ok (acc.reverse, rp)
  | n + 1 =>
    match extract_word rp with
    | .error e => .error e
    | .ok (a, rp) => read_words rp (a :: acc) n

/-- The `DG_R_BBRUN` address loop: for each of the `n_addrs` slots, read
the effective address, decide `keep_access`, record the touched page and
the containing block for kept entries, and write the `0` sentinel for
rejected ones.  `page_map` updates made before a later throw persist,
so the state is threaded through. -/
def bbrun_loop (opts : LoadOpts) (bbd : Bbdef) (st : LoadState)
    (rp : RecordParser) (i : ℕ) (addrs : List ℕ) (blocks : List (Option ℕ))
    (keep_any : Bool) :
    ℕ → Except (RecErr × LoadState × RecordParser)
      (LoadState × RecordParser × List ℕ × List (Option ℕ) × Bool)
  | 0 => .ok (st, rp, addrs.reverse, blocks.reverse, keep_any)
  | n + 1 =>
    match extract_word rp with
    | .error e => .error (e, st, rp)
    | .ok (addr, rp) =>
      let access := bbd.accesses.getD i ⟨0, 0, 0⟩
      if keep_access opts st.activeEvents st.activeRanges st.blockMap addr access.size then
        let st' := { st with pageKeys := mapInsertKey (page_round_down addr) st.pageKeys }
        bbrun_loop opts bbd st' rp (i + 1) (addr :: addrs)
          (find_block st.blockMap addr :: blocks) true n
      else
        bbrun_loop opts bbd st rp (i + 1) (0 :: addrs) (none :: blocks) keep_any n

/-- The `DG_R_MALLOC_BLOCK` stack loop. -/
def read_block_stack (rp : RecordParser) (acc : List ℕ) :
    ℕ → Except RecErr (List ℕ × RecordParser)
  | 0 => .ok (acc.reverse, rp)
  | n + 1 =>
    match extract_word rp with
    | .error e => .error e
    | .ok (a, rp) => read_words rp (a :: acc) n

/-- The per-record `switch` of `load` for records after the header. -/
def load_record (opts : LoadOpts) (st : LoadState) (ty : ℕ) (rp : RecordParser) :
    BodyResult :=
  if ty = DG_R_HEADER then .error (.pe .content, st, rp)
  else if ty = DG_R_BBDEF then
    match extract_byte rp with
    | .error e => .error (.pe e, st, rp)
    | .ok (n_instrs, rp) =>
      match extract_word rp with
      | .error e => .error (.pe e, st, rp)
      | .ok (n_accesses, rp) =>
        if n_instrs = 0 then .error (.pe .content, st, rp)
        else
          match read_instr_addrs rp [] n_instrs with
          | .error e => .error (.pe e, st, rp)
          | .ok (instr_addrs, rp) =>
            match read_accesses rp n_instrs [] n_accesses with
            | .error e => .error (.pe e, st, rp)
            | .ok (accesses, rp) =>
              .ok ({ st with bbdefs := st.bbdefs ++ [⟨instr_addrs, accesses⟩] }, rp)
  else if ty = DG_R_CONTEXT then
    match extract_word rp with
    | .error e => .error (.pe e, st, rp)
    | .ok (bbdef_index, rp) =>
      match extract_byte rp with
      | .error e => .error (.pe e, st, rp)
      | .ok (n_stack, rp) =>
        if n_stack = 0 then .error (.pe .content, st, rp)
        else
          match read_words rp [] n_stack with
          | .error e => .error (.pe e, st, rp)
          | .ok (stack, rp) =>
            if st.bbdefs.length ≤ bbdef_index then .error (.pe .content, st, rp)
            else .ok ({ st with contexts := st.contexts ++ [⟨bbdef_index, stack⟩] }, rp)
  else if ty = DG_R_BBRUN then
    match extract_word rp with
    | .error e => .error (.pe e, st, rp)
    | .ok (context_index, rp) =>
      if st.contexts.length ≤ context_index then .error (.pe .content, st, rp)
      else
        match extract_byte rp with
        | .error e => .error (.pe e, st, rp)
        | .ok (n_instrs, rp) =>
          let n_addrs := rp.remain / wordsize
          let ctx := st.contexts.getD context_index ⟨0, []⟩
          let bbd := st.bbdefs.getD ctx.bbdef_index ⟨[], []⟩
          if bbd.accesses.length < n_addrs then .error (.pe .content, st, rp)
          else
            match bbrun_loop opts bbd st rp 0 [] [] false n_addrs with
            | .error (e, st', rp') => .error (.pe e, st', rp')
            | .ok (st', rp, addrs, blocks, keep_any) =>
              let bbr : Bbrun := ⟨st.iseq, st.dseq, context_index, addrs, blocks⟩
              let st'' := { st' with
                bbruns := if keep_any then st'.bbruns ++ [bbr] else st'.bbruns,
                iseq := st'.iseq + n_instrs,
                dseq := st'.dseq + n_addrs }
              .ok (st'', rp)
  else if ty = DG_R_TRACK_RANGE then
    match extract_word rp with
    | .error e => .error (.pe e, st, rp)
    | .ok (addr, rp) =>
      match extract_word rp with
      | .error e => .error (.pe e, st, rp)
      | .ok (size, rp) =>
        match extract_string rp with
        | .error e => .error (.pe e, st, rp)
        | .ok (_var_type, rp) =>
          match extract_string rp with
          | .error e => .error (.pe e, st, rp)
          | .ok (label, rp) =>
            .ok ({ st with activeRanges :=
                    track_range_update opts.chosenRanges st.activeRanges addr size label }, rp)
  else if ty = DG_R_UNTRACK_RANGE then
    match extract_word rp with
    | .error e => .error (.pe e, st, rp)
    | .ok (addr, rp) =>
      match extract_word rp with
      | .error e => .error (.pe e, st, rp)
      | .ok (size, rp) =>
        .ok ({ st with activeRanges := untrack_range_update st.activeRanges addr size }, rp)
  else if ty = DG_R_MALLOC_BLOCK then
    match extract_word rp with
    | .error e => .error (.pe e, st, rp)
    | .ok (addr, rp) =>
      match extract_word rp with
      | .error e => .error (.pe e, st, rp)
      | .ok (size, rp) =>
        match extract_word rp with
        | .error e => .error (.pe e, st, rp)
        | .ok (n_ips, rp) =>
          match read_block_stack rp [] n_ips with
          | .error e => .error (.pe e, st, rp)
          | .ok (stack, rp) =>
            let st' := { st with
              blockStorage := st.blockStorage ++ [⟨addr, size, stack⟩] }
            match rangemap_insert st'.blockMap addr ((addr + size) % hwordMod)
                st.blockStorage.length with
            | .error () => .error (.invalidArg, st', rp)
            | .ok bm => .ok ({ st' with blockMap := bm }, rp)
  else if ty = DG_R_FREE_BLOCK then
    match extract_word rp with
    | .error e => .error (.pe e, st, rp)
    | .ok (addr, rp) =>
      .ok ({ st with blockMap := rangemap_erase st.blockMap addr }, rp)
  else if ty = DG_R_START_EVENT ∨ ty = DG_R_END_EVENT then
    match extract_string rp with
    | .error e => .error (.pe e, st, rp)
    | .ok (label, rp) =>
      if opts.chosenEvents.contains label then
        if ty = DG_R_START_EVENT then
          .ok ({ st with activeEvents := label :: st.activeEvents }, rp)
        else
          .ok ({ st with activeEvents := st.activeEvents.erase label }, rp)
      else .ok (st, rp)
  else if ty = DG_R_TEXT_AVMA then
    match extract_word rp with
    | .error e => .error (.pe e, st, rp)
    | .ok (_avma, rp) =>
      match extract_string rp with
      | .error e => .error (.pe e, st, rp)
      | .ok (_filename, rp) => .ok (st, rp)
  else .error (.pe .content, st, rp)

/-- One record body (header branch when `first`, the record `switch`
otherwise) followed by `rp->finish()`. -/
def run_body (opts : LoadOpts) (st : LoadState) (ty : ℕ) (rp : RecordParser) :
    BodyResult :=
  match (if st.first then load_header st ty rp else load_record opts st ty rp) with
  | .error e => .error e
  | .ok (st', rp') =>
    match rp'.finish with
    | .error e => .error (.pe e, st', rp')
    | .ok rp'' => .ok (st', rp'')

/-- The `try`/`catch` around one record: a
`record_parser_content_error` is logged, the record remainder discarded
and the loop continues (an exception from the discard itself escapes the
handler, uncaught); any other `record_parser_error` logs and exits 1;
`std::invalid_argument` is uncaught. -/
def handle_record (opts : LoadOpts) (st : LoadState) (ty : ℕ) (rp : RecordParser) :
    Except LoadFatal (LoadState × List ℕ) :=
  match run_body opts st ty rp with
  | .ok (st', rp') => .ok (st', rp'.rest)
  | .error (.invalidArg, _, _) => .error .uncaught
  | .error (.pe e, st', rp') =>
    if e.isContent then
      match rp'.discard with
      | .ok rp'' => .ok (st', rp''.rest)
      | .error _ => .error .uncaught
    else .error (.exit1 e)

/-- The `load` loop: `record_parser::create` until EOF, handling each
record; stream errors from `create` itself are thrown outside the `try`
block and escape `load` uncaught.  `fuel` bounds the iteration count
(each record consumes at least the type byte). -/
def load_go (opts : LoadOpts) (st : LoadState) (file : List ℕ) :
    ℕ → Except LoadFatal LoadState
  | 0 => .error .uncaught
  | fuel + 1 =>
    match record_parser_create file with
    | .error _ => .error .uncaught
    | .ok none => .ok st
    | .ok (some (ty, rp)) =>
      match handle_record opts st ty rp with
      | .error f => .error f
      | .ok (st', rest) => load_go opts st' rest fuel

/-- `load` on a whole file (the record loop; the page-slot assignment
and the summary are modelled separately below). -/
def load (opts : LoadOpts) (file : List ℕ) : Except LoadFatal LoadState :=
  load_go opts initState file (file.length + 1)

/-- The summary `printf` at the end of `load` reads
`bbruns.back().iseq_start` and `bbruns.back().dseq_start +
bbruns.back().n_addrs`: `back()` on an empty vector has no defined
value (`none`). -/
def load_summary (bbruns : List Bbrun) : Option (ℕ × ℕ) :=
  match bbruns.getLast? with
  | some b => some (b.iseq_start, b.dseq_start + b.addrs.length)
  | none => none

/-- A well-formed header record as the Recorder writes it
(`prepare_out_file`): type `DG_R_HEADER`, length 14, the magic with its
NUL, version 1, little-endian, wordsize 8. -/
def headerBytes : List ℕ := 0 :: 14 :: (dgMagic ++ [0, 1, 0, 8])

/-- The same header with wordsize 4 instead of the analyzer's 8. -/
def headerBytesWS4 : List ℕ := 0 :: 14 :: (dgMagic ++ [0, 1, 0, 4])

/-- An analyzer run with no filters chosen. -/
def opts0 : LoadOpts := ⟨[], [], false⟩

/-- The little-endian bytes of one 64-bit word as the Recorder emits
it. -/
def wordBytes (n : ℕ) : List ℕ :=
  [n % 256, n / 2 ^ 8 % 256, n / 2 ^ 16 % 256, n / 2 ^ 24 % 256,
   n / 2 ^ 32 % 256, n / 2 ^ 40 % 256, n / 2 ^ 48 % 256, n / 2 ^ 56 % 256]

/-- A `DG_R_BBDEF` record: one instruction at `0x1000` (size byte 4,
discarded), one access `(dir 1, size 4, iseq 0)`; body length
`1 + 8 + 9 + 3 = 21`. -/
def bbdefRecBytes : List ℕ :=
  DG_R_BBDEF :: 21 :: ([1] ++ wordBytes 1 ++ wordBytes 4096 ++ [4] ++ [1, 4, 0])

/-- A `DG_R_CONTEXT` record: bbdef index 0, one stack entry `0x1000`;
body length `8 + 1 + 8 = 17`. -/
def contextRecBytes : List ℕ :=
  DG_R_CONTEXT :: 17 :: (wordBytes 0 ++ [1] ++ wordBytes 4096)

/-- A `DG_R_BBRUN` record: context index 0, one instruction, one access
address `0x2000`; body length `8 + 1 + 8 = 17`. -/
def bbrunRecBytes : List ℕ :=
  DG_R_BBRUN :: 17 :: (wordBytes 0 ++ [1] ++ wordBytes 8192)

/-- A trace whose first header declares wordsize 4, followed by a valid
header and one basic block that is defined, given a context and run
once. -/
def doubleHeaderTrace : List ℕ :=
  headerBytesWS4 ++ headerBytes ++ bbdefRecBytes ++ contextRecBytes ++ bbrunRecBytes

/-- What `main` does with the loaded trace: exit 1 on a fatal load
error, abnormal termination on an uncaught exception, the
`"No accesses match the criteria."` message and exit code 0 when no
BBRun survived, otherwise the visualisation starts. -/
inductive MainResult : Type
  | exit0_noaccess
  | visualize
  | exit1
  | abnormal
  deriving Repr, DecidableEq

/-- `main` after `parse_opts`: `load(file)`, then the `bbruns.empty()`
check.  Before `load` returns, its summary `printf` unconditionally
evaluates `bbruns.back()`; when no BBRun was stored that read has no
defined value (`load_summary` is `none`) and the run terminates
abnormally there, before `main`'s check can print the no-accesses
message. -/
def analyzer_result (opts : LoadOpts) (file : List ℕ) : MainResult :=
  match load opts file with
  | .error (.exit1 _) => .exit1
  | .error .uncaught => .abnormal
  | .ok st =>
    match load_summary st.bbruns with
    | none => .abnormal
    | some _ => if st.bbruns.isEmpty then .exit0_noaccess else .visualize

/-! ## NearestAccessQuery (`dg_view.cpp`: `nearest_access`)

The C code scores candidates with `double` arithmetic:
`score = hypot((addrs[i] - addr) * ratio, cur_iseq - iseq)`.  The
embedding works in exact arithmetic (`ℚ`) and carries the *square* of
each score; every comparison the algorithm makes is translated through
the order isomorphism `x ↦ x²` on nonnegative values, so the compared
outcomes are identical:
* `score < best_score`  ⟷  `scoreSq < bestSq`;
* `iseq_start > iseq + best_score`  ⟷  `0 ≤ d ∧ bestSq < d²` for
  `d = iseq_start - iseq`;
* `iseq_start ≤ iseq - best_score`  ⟷  `0 ≤ e ∧ bestSq ≤ e²` for
  `e = iseq - iseq_start`.
`best_score = HUGE_VAL` is the `none` state: both stopping comparisons
are false there (any finite value exceeds `iseq - HUGE_VAL` and no
finite value exceeds `iseq + HUGE_VAL`), which also covers the one
reachable evaluation of `back->iseq_start` at the end iterator.
-/

/-- A query point: remapped-back address, instruction sequence and the
address/iseq scale ratio (all `double`s in the source). -/
structure Query : Type where
  addr : ℚ
  iseq : ℚ
  ratio : ℚ

/-- Following the links `bbrun → context → bbdef` as in
`nearest_access_bbrun` (`contexts[bbr.context_index]`,
`bbdefs[ctx.bbdef_index]`). -/
def bbdef_of (bbdefs : List Bbdef) (contexts : List Context) (r : Bbrun) : Bbdef :=
  bbdefs.getD (contexts.getD r.context_index ⟨0, []⟩).bbdef_index ⟨[], []⟩

/-- `cur_iseq = bbr.iseq_start + bbd.accesses[i].iseq`. -/
def access_iseq (bbd : Bbdef) (r : Bbrun) (i : ℕ) : ℕ :=
  r.iseq_start + (bbd.accesses.getD i ⟨0, 0, 0⟩).iseq

/-- The squared distance of candidate `i` of a BBRun:
`((addrs[i] - addr) * ratio)² + (cur_iseq - iseq)²`. -/
def scoreSq (q : Query) (bbd : Bbdef) (r : Bbrun) (i : ℕ) : ℚ :=
  (((r.addrs.getD i 0 : ℚ) - q.addr) * q.ratio) ^ 2 +
    ((access_iseq bbd r i : ℚ) - q.iseq) ^ 2

/-- One step of the scan in `nearest_access_bbrun`: skip the `0`
sentinel, otherwise update on a strictly smaller score (first seen
wins ties). -/
def nab_step (q : Query) (bbd : Bbdef) (r : Bbrun)
    (best : Option (ℚ × ℕ)) (i : ℕ) : Option (ℚ × ℕ) :=
  if r.addrs.getD i 0 ≠ 0 then
    let s := scoreSq q bbd r i
    match best with
    | none => some (s, i)
    | some (bs, bi) => if s < bs then some (s, i) else some (bs, bi)
  else best

/-- `nearest_access_bbrun`: best squared score and index over the
`n_addrs` candidate positions; `none` is the `HUGE_VAL` result. -/
def nearest_access_bbrun (q : Query) (bbdefs : List Bbdef)
    (contexts : List Context) (r : Bbrun) : Option (ℚ × ℕ) :=
  (List.range r.addrs.length).foldl
    (nab_step q (bbdef_of bbdefs contexts r) r) none

/-- Merging a BBRun's scan result into the running best
(`if (sub.first < best_score) …`, recording the BBRun position). -/
def near_combine (best : Option (ℚ × ℕ × ℕ)) (p : ℕ) (sub : Option (ℚ × ℕ)) :
    Option (ℚ × ℕ × ℕ) :=
  match sub with
  | none => best
  | some (s, i) =>
    match best with
    | none => some (s, p, i)
    | some (bs, bp, bi) => if s < bs then some (s, p, i) else some (bs, bp, bi)

/-- `std::lower_bound` over `bbruns` with `compare_bbrun_iseq`: the
first position whose `iseq_start` is not below the target (the vector
is ordered by `iseq_start`). -/
def lower_bound_iseq (bbruns : List Bbrun) (target : ℕ) : ℕ :=
  (bbruns.takeWhile (fun r => decide (r.iseq_start < target))).length

/-- The default `Bbrun` used for out-of-range `getD` reads (never
consulted on in-range executions). -/
def defaultBbrun : Bbrun := ⟨0, 0, 0, [], []⟩

/-- The forward branch of one loop iteration of `nearest_access`:
nothing at `end`; else prune (`forw->iseq_start > iseq + best_score`,
jumping to `end`) or scan `*forw` and advance. -/
def near_forward (bbdefs : List Bbdef) (contexts : List Context)
    (bbruns : List Bbrun) (q : Query) (forw : ℕ) (best : Option (ℚ × ℕ × ℕ)) :
    ℕ × Option (ℚ × ℕ × ℕ) :=
  if forw < bbruns.length then
    let r := bbruns.getD forw defaultBbrun
    let d : ℚ := (r.iseq_start : ℚ) - q.iseq
    let stop : Bool := match best with
      | none => false
      | some (bs, _, _) => decide (0 ≤ d ∧ bs < d ^ 2)
    if stop then (bbruns.length, best)
    else (forw + 1,
          near_combine best forw (nearest_access_bbrun q bbdefs contexts r))
  else (forw, best)

/-- The backward branch of one loop iteration: nothing at `begin`; else
prune (`back->iseq_start <= iseq - best_score`, jumping to `begin`) or
step back and scan.  The comparison reads `back->iseq_start`, which at
the `end` iterator is only reached with `best_score = HUGE_VAL`, where
the comparison against `iseq - HUGE_VAL` is false regardless of the
value read — which the `none` case reproduces. -/
def near_backward (bbdefs : List Bbdef) (contexts : List Context)
    (bbruns : List Bbrun) (q : Query) (back : ℕ) (best : Option (ℚ × ℕ × ℕ)) :
    ℕ × Option (ℚ × ℕ × ℕ) :=
  if back ≠ 0 then
    let bstart : ℕ := ((bbruns.get? back).map Bbrun.iseq_start).getD 0
    let e : ℚ := q.iseq - (bstart : ℚ)
    let stop : Bool := match best with
      | none => false
      | some (bs, _, _) => decide (0 ≤ e ∧ bs ≤ e ^ 2)
    if stop then (0, best)
    else
      let r := bbruns.getD (back - 1) defaultBbrun
      (back - 1,
       near_combine best (back - 1) (nearest_access_bbrun q bbdefs contexts r))
  else (back, best)

/-- The bidirectional search loop of `nearest_access`.  Each iteration
runs the forward branch and then the backward branch on the best value
the forward branch produced, exactly as in the source.  `fuel` bounds
the iteration count; `nearest_access` passes enough for the loop to
reach its exit condition. -/
def near_go (bbdefs : List Bbdef) (contexts : List Context)
    (bbruns : List Bbrun) (q : Query) :
    ℕ → ℕ → ℕ → Option (ℚ × ℕ × ℕ) → Option (ℚ × ℕ × ℕ)
  | 0, _, _, best => best
  | fuel + 1, forw, back, best =>
    if forw = bbruns.length ∧ back = 0 then best
    else
      let fb := near_forward bbdefs contexts bbruns q forw best
      let bb := near_backward bbdefs contexts bbruns q back fb.2
      near_go bbdefs contexts bbruns q fuel fb.1 bb.1 bb.2

/-- `nearest_access`: split at `lower_bound` of `(uint64_t) iseq` and
run the bidirectional search; the result is the position of the best
BBRun in `bbruns` and the best candidate index within it (`none` when
`best == bbruns.end()`, i.e. the empty `mem_access` return). -/
def nearest_access (bbdefs : List Bbdef) (contexts : List Context)
    (bbruns : List Bbrun) (q : Query) : Option (ℕ × ℕ) :=
  let start := lower_bound_iseq bbruns (Int.toNat ⌊q.iseq⌋)
  (near_go bbdefs contexts bbruns q (bbruns.length + 1) start start none).map
    (fun b => (b.2.1, b.2.2))

/-! Specification vocabulary for the nearest-access correctness claim. -/

/-- Candidate position `i` of the `p`-th stored BBRun is a *kept*
access: in range and not the `0` sentinel. -/
def keptAt (bbruns : List Bbrun) (p i : ℕ) : Prop :=
  p < bbruns.length ∧ i < (bbruns.getD p defaultBbrun).addrs.length ∧
    (bbruns.getD p defaultBbrun).addrs.getD i 0 ≠ 0

/-- The squared distance of the access at position `(p, i)`. -/
def scoreAt (bbdefs : List Bbdef) (contexts : List Context)
    (bbruns : List Bbrun) (q : Query) (p i : ℕ) : ℚ :=
  scoreSq q (bbdef_of bbdefs contexts (bbruns.getD p defaultBbrun))
    (bbruns.getD p defaultBbrun) i

/-- The loop invariant of the bidirectional search: cursors in range,
the degenerate all-`end` start state only with no best yet, and the
running best (when present) is a kept access achieving its score that
is minimal over every kept access in the covered range `[back, forw)`. -/
def NearInv (bbdefs : List Bbdef) (contexts : List Context)
    (bbruns : List Bbrun) (q : Query) (forw back : ℕ)
    (best : Option (ℚ × ℕ × ℕ)) : Prop :=
  back ≤ bbruns.length ∧ forw ≤ bbruns.length ∧
  (back = bbruns.length → best = none ∧ forw = bbruns.length) ∧
  (best = none → ∀ p i, back ≤ p → p < forw → ¬ keptAt bbruns p i) ∧
  (∀ s bp bi, best = some (s, bp, bi) →
    keptAt bbruns bp bi ∧ s = scoreAt bbdefs contexts bbruns q bp bi ∧
    ∀ p i, back ≤ p → p < forw → keptAt bbruns p i →
      s ≤ scoreAt bbdefs contexts bbruns q p i)

/-! # Theorems -/

/-! ## C10: record framing in `record_parser::create` -/

/-- C10: a record whose type byte is ≥ 0x80 carries no length prefix and
is given a fixed body size of 1 byte; for a type byte < 0x80 a one-byte
length prefix follows, and the prefix value 255 means the true body
length is read as a following 8-byte little-endian u64. -/
theorem create_framing (ty szb b0 b1 b2 b3 b4 b5 b6 b7 : ℕ) (rest : List ℕ) :
    (0x80 ≤ ty →
      record_parser_create (ty :: rest) = .ok (some (ty, ⟨1, 0, rest⟩))) ∧
    (ty < 0x80 → szb < 255 →
      record_parser_create (ty :: szb :: rest) = .ok (some (ty, ⟨szb, 0, rest⟩))) ∧
    (ty < 0x80 →
      record_parser_create
          (ty :: 255 :: b0 :: b1 :: b2 :: b3 :: b4 :: b5 :: b6 :: b7 :: rest) =
        .ok (some (ty,
          ⟨b0 + 2 ^ 8 * b1 + 2 ^ 16 * b2 + 2 ^ 24 * b3 + 2 ^ 32 * b4 +
             2 ^ 40 * b5 + 2 ^ 48 * b6 + 2 ^ 56 * b7, 0, rest⟩))) := by
  refine ⟨fun h => ?_, fun h1 h2 => ?_, fun h => ?_⟩
  · simp [record_parser_create, h]
  · simp [record_parser_create, Nat.not_le.mpr h1, h2]
  · simp only [record_parser_create, Nat.not_le.mpr h, if_false, lt_irrefl,
      List.length_cons, List.take, List.drop]
    rw [if_neg (by omega)]
    refine congrArg (fun n => Except.ok (some (ty, (⟨n, 0, rest⟩ : RecordParser)))) ?_
    simp only [leWord, List.foldr_cons, List.foldr_nil]
    ring

/-- C10 witness: the three framing cases at concrete bytes. -/
theorem create_framing_witness :
    (record_parser_create (0x85 :: [7, 7]) = .ok (some (0x85, ⟨1, 0, [7, 7]⟩))) ∧
    (record_parser_create (3 :: 16 :: [9]) = .ok (some (3, ⟨16, 0, [9]⟩))) ∧
    (record_parser_create (3 :: 255 :: 1 :: 2 :: 0 :: 0 :: 0 :: 0 :: 0 :: 0 :: [5]) =
      .ok (some (3, ⟨1 + 2 ^ 8 * 2 + 2 ^ 16 * 0 + 2 ^ 24 * 0 + 2 ^ 32 * 0 +
                       2 ^ 40 * 0 + 2 ^ 48 * 0 + 2 ^ 56 * 0, 0, [5]⟩))) :=
  ⟨(create_framing 0x85 0 0 0 0 0 0 0 0 0 [7, 7]).1 (by decide),
   (create_framing 3 16 0 0 0 0 0 0 0 0 [9]).2.1 (by decide) (by decide),
   (create_framing 3 0 1 2 0 0 0 0 0 0 [5]).2.2 (by decide)⟩

/-! ## C3: `out_bytes` and the 4 KiB output buffer

The claim says an append larger than the whole buffer flushes and is
then written directly to the sink.  The code has no direct-write path:
after the flush it `memcpy`s `count` bytes into `out_buf`
unconditionally, so any `count > OUT_BUF_SIZE` writes past the end of
the buffer. -/

/-- C3: with an empty buffer, `out_bytes(buf, 4097)` flushes (the
remaining capacity 4096 is exceeded) and then `memcpy`s bytes 0..4097
of the 4096-byte `out_buf`: the write extends past the end of the
buffer, contradicting the claimed direct-to-sink path for oversized
appends. -/
theorem out_bytes_writes_past_end :
    out_bytes_writes 0 4097 = (0, 4097) ∧
    OUT_BUF_SIZE < (out_bytes_writes 0 4097).2 ∧
    (∀ used count, used + count ≤ OUT_BUF_SIZE →
      (out_bytes_writes used count).2 ≤ OUT_BUF_SIZE) := by
  refine ⟨by decide, by decide, fun used count h => ?_⟩
  simp only [out_bytes_writes, OUT_BUF_SIZE] at *
  split <;> omega

/-! ## C5: BBDEF structural invariants and the 255-instruction split -/

/-- The builder invariant maintained between operations. -/
def BbdWF (bbd : DgBBDef) : Prop :=
  bbd.instrs.length ≤ 255 ∧ ∀ a ∈ bbd.accesses, a.iseq < bbd.instrs.length

/-- An emitted BBDEF record is structurally valid. -/
def EmittedOK (e : DgBBDef) : Prop :=
  1 ≤ e.instrs.length ∧ e.instrs.length ≤ 255 ∧
    ∀ a ∈ e.accesses, a.iseq < e.instrs.length

theorem buildSB_go_wf (ops : List BuildOp) :
    ∀ bbd out, BbdWF bbd → buildSB_go ops bbd = some out →
      ∀ e ∈ out, EmittedOK e := by
  induction ops with
  | nil =>
    intro bbd out hwf h e he
    simp only [buildSB_go] at h
    split at h
    · exact absurd h (by simp)
    · rename_i hne
      simp only [Option.some.injEq] at h
      subst h
      simp only [List.mem_singleton] at he
      subst he
      simp only [dg_bbdef_flush, hne, if_false, Option.getD_some]
      exact ⟨Nat.one_le_iff_ne_zero.mpr hne, hwf.1, hwf.2⟩
  | cons op ops ih =>
    intro bbd out hwf h e he
    cases op with
    | instr a s =>
      simp only [buildSB_go, dg_bbdef_add_instr] at h
      by_cases hs : 255 < s
      · rw [if_pos hs] at h
        simp at h
      · rw [if_neg hs] at h
        by_cases h255 : bbd.instrs.length = 255
        · rw [if_pos h255] at h
          simp only [dg_bbdef_flush] at h
          rw [if_neg (by omega)] at h
          simp only [List.nil_append] at h
          cases hgo : buildSB_go ops ⟨[(a, s)], []⟩ with
          | none => rw [hgo] at h; simp at h
          | some out' =>
            rw [hgo] at h
            simp only [Option.some.injEq] at h
            subst h
            rcases List.mem_cons.mp he with he | he
            · subst he
              exact ⟨by omega, by omega, hwf.2⟩
            · refine ih ⟨[(a, s)], []⟩ out' ⟨by simp, by simp⟩ hgo e he
        · rw [if_neg h255] at h
          simp only at h
          refine ih ⟨bbd.instrs ++ [(a, s)], bbd.accesses⟩ out ⟨?_, ?_⟩ h e he
          · have h1 := hwf.1
            simp only [List.length_append, List.length_singleton]
            omega
          · intro x hx
            have hb := hwf.2 x hx
            simp only [List.length_append, List.length_singleton]
            omega
    | access d s =>
      simp only [buildSB_go, dg_bbdef_add_access] at h
      by_cases h0 : bbd.instrs.length = 0
      · rw [if_pos h0] at h
        simp at h
      · rw [if_neg h0] at h
        by_cases hs : 255 < s
        · rw [if_pos hs] at h
          simp at h
        · rw [if_neg hs] at h
          simp only at h
          refine ih ⟨bbd.instrs, bbd.accesses ++ [⟨d, s, bbd.instrs.length - 1⟩]⟩ out
            ⟨hwf.1, ?_⟩ h e he
          intro x hx
          rcases List.mem_append.mp hx with hx | hx
          · exact hwf.2 x hx
          · simp only [List.mem_singleton] at hx
            subst hx
            show bbd.instrs.length - 1 < bbd.instrs.length
            omega

/-- C5: every BBDEF record the Recorder emits over a superblock has
`1 ≤ n_instrs ≤ 255` and every access's `iseq < n_instrs`; and when an
instruction mark arrives while the current BBDef already holds 255
instructions, that BBDef is flushed (emitted as-is) and a fresh BBDef
holding just the new instruction is begun. -/
theorem bbdef_emitted_invariants :
    (∀ ops out, buildSB ops = some out → ∀ e ∈ out,
      1 ≤ e.instrs.length ∧ e.instrs.length ≤ 255 ∧
        ∀ a ∈ e.accesses, a.iseq < e.instrs.length) ∧
    (∀ bbd addr size, bbd.instrs.length = 255 → size ≤ 255 →
      dg_bbdef_add_instr bbd addr size = some (some bbd, ⟨[(addr, size)], []⟩)) := by
  constructor
  · intro ops out h e he
    exact buildSB_go_wf ops ⟨[], []⟩ out ⟨by simp, by simp⟩ h e he
  · intro bbd addr size h255 hs
    simp only [dg_bbdef_add_instr, dg_bbdef_flush, h255, if_true,
      Nat.not_lt.mpr hs, if_false]
    rw [if_neg (by omega)]
    simp

/-- C5 witness: a two-op superblock emits one valid BBDEF, and
`dg_bbdef_add_instr` on a 255-instruction builder splits. -/
theorem bbdef_emitted_invariants_witness :
    (∀ e ∈ [(⟨[(100, 4)], [⟨1, 4, 0⟩]⟩ : DgBBDef)],
      1 ≤ e.instrs.length ∧ e.instrs.length ≤ 255 ∧
        ∀ a ∈ e.accesses, a.iseq < e.instrs.length) ∧
    dg_bbdef_add_instr ⟨List.replicate 255 (0, 1), []⟩ 7 2 =
      some (some ⟨List.replicate 255 (0, 1), []⟩, ⟨[(7, 2)], []⟩) :=
  ⟨bbdef_emitted_invariants.1 [.instr 100 4, .access 1 4] _ rfl,
   bbdef_emitted_invariants.2 ⟨List.replicate 255 (0, 1), []⟩ 7 2
     (by show (List.replicate 255 ((0 : ℕ), (1 : ℕ))).length = 255
         rw [List.length_replicate])
     (by omega)⟩

/-! ## C4: rangemap laws -/

theorem head_dropWhile_false {α : Type} {p : α → Bool} {l : List α} {x : α}
    (h : (l.dropWhile p).head? = some x) : p x = false := by
  induction l with
  | nil => simp [List.dropWhile] at h
  | cons y ys ih =>
    rw [List.dropWhile_cons] at h
    by_cases hp : p y
    · rw [if_pos hp] at h
      exact ih h
    · rw [if_neg hp] at h
      simp only [List.head?_cons, Option.some.injEq] at h
      subst h
      exact Bool.eq_false_iff.mpr hp

theorem mem_of_getLast?_eq {α : Type} {l : List α} {x : α}
    (h : l.getLast? = some x) : x ∈ l := by
  induction l with
  | nil => simp at h
  | cons y ys ih =>
    cases ys with
    | nil =>
      simp only [List.getLast?_singleton, Option.some.injEq] at h
      simp [h]
    | cons z zs =>
      rw [List.getLast?_cons_cons] at h
      exact List.mem_cons_of_mem y (ih h)

theorem pairwise_rel_getLast {α : Type} {R : α → α → Prop} {l : List α} {x y : α}
    (hp : l.Pairwise R) (hx : x ∈ l) (hl : l.getLast? = some y) : x = y ∨ R x y := by
  induction l with
  | nil => simp at hx
  | cons a as ih =>
    cases as with
    | nil =>
      simp only [List.getLast?_singleton, Option.some.injEq] at hl
      simp only [List.mem_singleton] at hx
      left
      rw [hx, hl]
    | cons b bs =>
      rw [List.getLast?_cons_cons] at hl
      rcases List.mem_cons.mp hx with rfl | hx
      · exact Or.inr ((List.pairwise_cons.mp hp).1 y (mem_of_getLast?_eq hl))
      · exact ih (List.pairwise_cons.mp hp).2 hx hl

theorem takeWhile_middle {α : Type} (p : α → Bool) (l1 l2 : List α) (y : α)
    (h1 : ∀ x ∈ l1, p x = true) (hy : p y = false) :
    (l1 ++ y :: l2).takeWhile p = l1 ∧ (l1 ++ y :: l2).dropWhile p = y :: l2 := by
  induction l1 with
  | nil =>
    simp only [List.nil_append, List.takeWhile_cons, List.dropWhile_cons, hy]
    simp
  | cons a as ih =>
    have ha := h1 a (by simp)
    have ih' := ih (fun x hx => h1 x (List.mem_cons_of_mem a hx))
    constructor
    · rw [List.cons_append, List.takeWhile_cons_of_pos ha, ih'.1]
    · rw [List.cons_append, List.dropWhile_cons_of_pos ha, ih'.2]

theorem mem_of_head?_eq {α : Type} {l : List α} {x : α} (h : l.head? = some x) :
    x ∈ l := by
  cases l with
  | nil => simp at h
  | cons y ys =>
    simp only [List.head?_cons, Option.some.injEq] at h
    simp [h]

theorem keyLt_true_iff (k1 k2 : ℕ × ℕ) :
    keyLt k1 k2 = true ↔ k1.1 < k2.1 ∨ (k1.1 = k2.1 ∧ k1.2 < k2.2) := by
  simp [keyLt]

theorem keyLt_false_iff (k1 k2 : ℕ × ℕ) :
    keyLt k1 k2 = false ↔ k2.1 < k1.1 ∨ (k2.1 = k1.1 ∧ k2.2 ≤ k1.2) := by
  simp only [keyLt]
  rw [decide_eq_false_iff_not]
  omega

/-- Every success branch of `rangemap::insert` inserts at the multimap
position. -/
theorem rangemap_insert_ok_eq {V : Type} (m : Rangemap V) (a b : ℕ) (v : V)
    (m' : Rangemap V) (h : rangemap_insert m a b v = .ok m') :
    m' = rangemap_insert_at m a b v := by
  simp only [rangemap_insert] at h
  split at h
  · exact absurd h (by simp)
  · split at h
    · split at h
      · exact absurd h (by simp)
      · simp only [rangemap_insert_low] at h
        split at h
        · split at h
          · exact absurd h (by simp)
          · simpa using h.symm
        · simpa using h.symm
    · simp only [rangemap_insert_low] at h
      split at h
      · split at h
        · exact absurd h (by simp)
        · simpa using h.symm
      · simpa using h.symm

/-- C4 counterexample: inserting the empty range `[5,5)` into an empty
rangemap succeeds, but `find(5)` then returns `end` rather than the
newly inserted range: the claimed `insert`/`find` law fails as stated. -/
theorem rangemap_insert_find_gap :
    rangemap_insert ([] : Rangemap ℕ) 5 5 0 = .ok [((5, 5), 0)] ∧
    rangemap_find [(((5 : ℕ), (5 : ℕ)), (0 : ℕ))] 5 = none := ⟨rfl, rfl⟩

/-- C4 amended: `insert([a,b), v)` throws `invalid_argument` when
`a > b`; and on a rangemap whose stored ranges are non-overlapping and
nonempty, for a nonempty new range (`a < b`) it throws exactly when some
stored range overlaps `[a, b)`, and after a successful insert `find(a)`
returns the new range carrying `v`.  (For empty ranges both directions
of the law fail, as the counterexample shows.) -/
theorem rangemap_insert_find_laws {V : Type} (m : Rangemap V) (a b : ℕ) (v : V)
    (hpw : m.Pairwise (fun e1 e2 => e1.1.2 ≤ e2.1.1))
    (hne : ∀ e ∈ m, e.1.1 < e.1.2) (hab : a < b) :
    (∀ (m0 : Rangemap V) a0 b0 (v0 : V), b0 < a0 →
        rangemap_insert m0 a0 b0 v0 = .error ()) ∧
    (rangemap_insert m a b v = .error () ↔ ∃ e ∈ m, a < e.1.2 ∧ e.1.1 < b) ∧
    (∀ m', rangemap_insert m a b v = .ok m' →
        rangemap_find m' a = some ((a, b), v)) := by
  have hsplit := List.takeWhile_append_dropWhile
    (p := fun e => keyLt e.1 (a, b)) (l := m)
  have hmemtake : ∀ x ∈ m.takeWhile (fun e => keyLt e.1 (a, b)), x ∈ m := by
    intro x hx
    exact (List.takeWhile_sublist _).subset hx
  have hmemdrop : ∀ x ∈ m.dropWhile (fun e => keyLt e.1 (a, b)), x ∈ m := by
    intro x hx
    exact (List.dropWhile_sublist _).subset hx
  -- the predecessor entry of the insertion point overlaps exactly when the
  -- searched-for overlap is with it
  have hlast : ∀ l0, (m.takeWhile (fun e => keyLt e.1 (a, b))).getLast? = some l0 →
      (a < l0.1.2 ↔ ∃ e ∈ m.takeWhile (fun e => keyLt e.1 (a, b)),
        a < e.1.2 ∧ e.1.1 < b) := by
    intro l0 hl
    have hl0mem := mem_of_getLast?_eq hl
    have hl0m : l0 ∈ m := hmemtake _ hl0mem
    have hl0k : keyLt l0.1 (a, b) = true := by
      have h := List.mem_takeWhile_imp hl0mem
      exact h
    have hl0key := (keyLt_true_iff l0.1 (a, b)).mp hl0k
    constructor
    · intro hal
      exact ⟨l0, mem_of_getLast?_eq hl, hal, by omega⟩
    · rintro ⟨e, hem, hae, -⟩
      have hpw' : (m.takeWhile (fun e => keyLt e.1 (a, b))).Pairwise
          (fun e1 e2 => e1.1.2 ≤ e2.1.1) :=
        hpw.sublist (List.takeWhile_sublist _)
      rcases pairwise_rel_getLast hpw' hem hl with rfl | hrel
      · exact hae
      · have hek : keyLt e.1 (a, b) = true := by
          have h := List.mem_takeWhile_imp hem
          exact h
        have hekey := (keyLt_true_iff e.1 (a, b)).mp hek
        omega
  -- no overlap lives in the suffix once its head passes both checks
  have hdropcase : ∀ e0, (m.dropWhile (fun e => keyLt e.1 (a, b))).head? = some e0 →
      ¬ e0.1.1 < b → ∀ e ∈ m.dropWhile (fun e => keyLt e.1 (a, b)),
        ¬ (a < e.1.2 ∧ e.1.1 < b) := by
    rintro e0 hh hb e hem ⟨hae, heb⟩
    have he0 := hne e0 (hmemdrop _ (mem_of_head?_eq hh))
    have hpw' : (m.dropWhile (fun e => keyLt e.1 (a, b))).Pairwise
        (fun e1 e2 => e1.1.2 ≤ e2.1.1) :=
      hpw.sublist (List.dropWhile_sublist _)
    cases haft : m.dropWhile (fun e => keyLt e.1 (a, b)) with
    | nil => rw [haft] at hem; simp at hem
    | cons h0 t0 =>
      rw [haft] at hh hem hpw'
      simp only [List.head?_cons, Option.some.injEq] at hh
      subst hh
      rcases List.mem_cons.mp hem with rfl | hem
      · omega
      · have := (List.pairwise_cons.mp hpw').1 e hem
        omega
  have herr : rangemap_insert m a b v = .error () ↔
      ∃ e ∈ m, a < e.1.2 ∧ e.1.1 < b := by
    constructor
    · intro h
      simp only [rangemap_insert] at h
      rw [if_neg (by omega)] at h
      split at h
      · rename_i e0 hh
        have he0m : e0 ∈ m := hmemdrop _ (mem_of_head?_eq hh)
        have hk0 : keyLt e0.1 (a, b) = false := by
          have h := head_dropWhile_false hh
          exact h
        have hkey := (keyLt_false_iff e0.1 (a, b)).mp hk0
        have he0 := hne e0 he0m
        split at h
        · rename_i hb
          exact ⟨e0, he0m, by omega, hb⟩
        · simp only [rangemap_insert_low] at h
          split at h
          · rename_i l0 hl
            split at h
            · rename_i hal
              have hlmem := mem_of_getLast?_eq hl
              have hlk : keyLt l0.1 (a, b) = true := by
                have h := List.mem_takeWhile_imp hlmem
                exact h
              have := (keyLt_true_iff l0.1 (a, b)).mp hlk
              exact ⟨l0, hmemtake _ hlmem, hal, by omega⟩
            · exact absurd h (by simp)
          · exact absurd h (by simp)
      · rename_i hh
        simp only [rangemap_insert_low] at h
        split at h
        · rename_i l0 hl
          split at h
          · rename_i hal
            have hlmem := mem_of_getLast?_eq hl
            have hlk : keyLt l0.1 (a, b) = true := by
              have h := List.mem_takeWhile_imp hlmem
              exact h
            have := (keyLt_true_iff l0.1 (a, b)).mp hlk
            exact ⟨l0, hmemtake _ hlmem, hal, by omega⟩
          · exact absurd h (by simp)
        · exact absurd h (by simp)
    · rintro ⟨e, hem, hae, heb⟩
      have hem' : e ∈ m.takeWhile (fun e => keyLt e.1 (a, b)) ++
          m.dropWhile (fun e => keyLt e.1 (a, b)) := by
        rw [List.takeWhile_append_dropWhile]
        exact hem
      simp only [rangemap_insert]
      rw [if_neg (by omega)]
      cases hh : (m.dropWhile (fun e => keyLt e.1 (a, b))).head? with
      | some e0 =>
        simp only [hh]
        by_cases hb : e0.1.1 < b
        · rw [if_pos hb]
        · rw [if_neg hb]
          -- the overlap must be with the getLast of the prefix
          have hebef : e ∈ m.takeWhile (fun e => keyLt e.1 (a, b)) := by
            rcases List.mem_append.mp hem' with h1 | h1
            · exact h1
            · exact absurd ⟨hae, heb⟩ (hdropcase e0 hh hb e h1)
          have hbefne : m.takeWhile (fun e => keyLt e.1 (a, b)) ≠ [] := by
            intro hnil
            rw [hnil] at hebef
            simp at hebef
          obtain ⟨l0, hl⟩ : ∃ l0,
              (m.takeWhile (fun e => keyLt e.1 (a, b))).getLast? = some l0 := by
            cases hgl : (m.takeWhile (fun e => keyLt e.1 (a, b))).getLast? with
            | none => exact absurd (List.getLast?_eq_none_iff.mp hgl) hbefne
            | some l0 => exact ⟨l0, rfl⟩
          simp only [rangemap_insert_low, hl]
          rw [if_pos ((hlast l0 hl).mpr ⟨e, hebef, hae, heb⟩)]
      | none =>
        simp only [hh]
        have hafts : m.dropWhile (fun e => keyLt e.1 (a, b)) = [] := by
          cases haft : m.dropWhile (fun e => keyLt e.1 (a, b)) with
          | nil => rfl
          | cons h0 t0 => rw [haft] at hh; simp at hh
        have hebef : e ∈ m.takeWhile (fun e => keyLt e.1 (a, b)) := by
          rcases List.mem_append.mp hem' with h1 | h1
          · exact h1
          · rw [hafts] at h1; simp at h1
        have hbefne : m.takeWhile (fun e => keyLt e.1 (a, b)) ≠ [] := by
          intro hnil
          rw [hnil] at hebef
          simp at hebef
        obtain ⟨l0, hl⟩ : ∃ l0,
            (m.takeWhile (fun e => keyLt e.1 (a, b))).getLast? = some l0 := by
          cases hgl : (m.takeWhile (fun e => keyLt e.1 (a, b))).getLast? with
          | none => exact absurd (List.getLast?_eq_none_iff.mp hgl) hbefne
          | some l0 => exact ⟨l0, rfl⟩
        simp only [rangemap_insert_low, hl]
        rw [if_pos ((hlast l0 hl).mpr ⟨e, hebef, hae, heb⟩)]
  refine ⟨?_, herr, ?_⟩
  · intro m0 a0 b0 v0 hlt
    rw [rangemap_insert, if_pos hlt]
  · intro m' hok
    have hnov : ¬ ∃ e ∈ m, a < e.1.2 ∧ e.1.1 < b := by
      intro hov
      rw [herr.mpr hov] at hok
      exact Except.noConfusion hok
    have hm'eq := rangemap_insert_ok_eq m a b v m' hok
    -- the prefix of the insertion point lies strictly before `a`
    have hbef2 : ∀ x ∈ m.takeWhile (fun e => !keyLt (a, b) e.1),
        (!keyLt (a, a) x.1) = true := by
      intro x hx
      have hxm : x ∈ m := (List.takeWhile_sublist _).subset hx
      have hxkey : keyLt (a, b) x.1 = false := by
        have := List.mem_takeWhile_imp hx
        simpa using this
      have hxkey' := (keyLt_false_iff (a, b) x.1).mp hxkey
      have hxne := hne x hxm
      have hxa : x.1.1 < a := by
        rcases hxkey' with h1 | h1
        · exact h1
        · exact absurd ⟨x, hxm, by omega, by omega⟩ hnov
      have : keyLt (a, a) x.1 = false := (keyLt_false_iff (a, a) x.1).mpr (by omega)
      simp [this]
    have hnew : (!keyLt (a, a) ((a, b), v).1) = false := by
      have : keyLt (a, a) (a, b) = true := (keyLt_true_iff _ _).mpr (by omega)
      simp [this]
    have hmid := takeWhile_middle (fun e => !keyLt (a, a) e.1)
      (m.takeWhile (fun e => !keyLt (a, b) e.1))
      (m.dropWhile (fun e => !keyLt (a, b) e.1)) ((a, b), v) hbef2 hnew
    rw [hm'eq]
    simp only [rangemap_find, rangemap_insert_at, hmid.1, hmid.2,
      List.head?_cons]
    simp

/-- C4 witness: the amended laws at a concrete map and range. -/
theorem rangemap_insert_find_laws_witness :
    (∀ (m0 : Rangemap ℕ) a0 b0 (v0 : ℕ), b0 < a0 →
        rangemap_insert m0 a0 b0 v0 = .error ()) ∧
    ((rangemap_insert [(((0 : ℕ), (10 : ℕ)), (7 : ℕ))] 20 30 5 = .error ()) ↔
      ∃ e ∈ [(((0 : ℕ), (10 : ℕ)), (7 : ℕ))], 20 < e.1.2 ∧ e.1.1 < 30) ∧
    (∀ m', rangemap_insert [(((0 : ℕ), (10 : ℕ)), (7 : ℕ))] 20 30 5 = .ok m' →
        rangemap_find m' 20 = some ((20, 30), 5)) :=
  rangemap_insert_find_laws [((0, 10), 7)] 20 30 5 (by simp) (by simp) (by omega)

/-! ## C6: the `--ranges` filter -/

/-- C6 counterexample: with only `--ranges` selected and an active
range `[0, 10)`, a size-0 access at address 5 is kept by `keep_access`
(its arithmetic test `addr + size > a && addr < a + s'` holds) although
the interval `[5, 5)` is empty and intersects nothing: the claimed
"kept iff intersects" equivalence fails as stated. -/
theorem keep_access_empty_interval :
    keep_access ⟨[], [[114]], false⟩ [] [(0, 10)] [] 5 0 = true ∧
    ∀ r ∈ [((0 : ℕ), (10 : ℕ))], ∀ x : ℕ,
      ¬ (5 ≤ x ∧ x < 5 + 0 ∧ r.1 ≤ x ∧ x < r.1 + r.2) := by
  constructor
  · rfl
  · rintro r hr x ⟨h1, h2, -, -⟩
    omega

/-- C6 amended: when only `--ranges` is given (no chosen events, no
`--malloc-only`), an access of size ≥ 1 whose end does not wrap is kept
iff its interval `[addr, addr+size)` intersects `[a, a+s')` for some
currently active (chosen-label) `TRACK_RANGE` `(a, s')` of size ≥ 1
whose end does not wrap.  (`active_ranges` holds exactly the ranges of
`TRACK_RANGE` records with chosen labels, see `track_range_update`.) -/
theorem keep_access_ranges_iff (opts : LoadOpts) (activeEvents : List (List ℕ))
    (activeRanges : List (ℕ × ℕ)) (blockMap : Rangemap ℕ) (addr size : ℕ)
    (hev : opts.chosenEvents = []) (hmal : opts.mallocOnly = false)
    (hr : opts.chosenRanges ≠ [])
    (hsz : 1 ≤ size) (hnw : addr + size < hwordMod)
    (hrng : ∀ r ∈ activeRanges, 1 ≤ r.2 ∧ r.1 + r.2 < hwordMod) :
    keep_access opts activeEvents activeRanges blockMap addr size = true ↔
      ∃ r ∈ activeRanges, ∃ x, addr ≤ x ∧ x < addr + size ∧
        r.1 ≤ x ∧ x < r.1 + r.2 := by
  simp only [keep_access, hev, hmal]
  rw [if_neg (by simp)]
  rw [if_pos hr]
  rw [if_neg (by simp)]
  rw [List.any_eq_true]
  constructor
  · rintro ⟨r, hrm, hcond⟩
    rw [decide_eq_true_eq] at hcond
    obtain ⟨hr2, hrn⟩ := hrng r hrm
    rw [Nat.mod_eq_of_lt hnw, Nat.mod_eq_of_lt hrn] at hcond
    exact ⟨r, hrm, max addr r.1, le_max_left _ _, by omega, le_max_right _ _, by omega⟩
  · rintro ⟨r, hrm, x, h1, h2, h3, h4⟩
    refine ⟨r, hrm, ?_⟩
    rw [decide_eq_true_eq]
    obtain ⟨hr2, hrn⟩ := hrng r hrm
    rw [Nat.mod_eq_of_lt hnw, Nat.mod_eq_of_lt hrn]
    omega

/-- C6 witness: the amended filter law at a concrete query. -/
theorem keep_access_ranges_iff_witness :
    keep_access ⟨[], [[114]], false⟩ [] [(0, 10)] [] 5 2 = true ↔
      ∃ r ∈ [((0 : ℕ), (10 : ℕ))], ∃ x, 5 ≤ x ∧ x < 5 + 2 ∧
        r.1 ≤ x ∧ x < r.1 + r.2 :=
  keep_access_ranges_iff ⟨[], [[114]], false⟩ [] [(0, 10)] [] 5 2
    rfl rfl (by simp) (by omega) (by decide)
    (by intro r hr; simp only [List.mem_singleton] at hr; subst hr; exact ⟨by omega, by decide⟩)

/-! ## C7: the page remap laws -/

theorem mem_mapInsertKey {k y : ℕ} : ∀ {l : List ℕ},
    y ∈ mapInsertKey k l → y = k ∨ y ∈ l := by
  intro l
  induction l with
  | nil => simp [mapInsertKey]
  | cons x xs ih =>
    simp only [mapInsertKey]
    split
    · intro h
      rcases List.mem_cons.mp h with rfl | h
      · exact Or.inl rfl
      · exact Or.inr h
    · split
      · intro h
        exact Or.inr h
      · intro h
        rcases List.mem_cons.mp h with rfl | h
        · exact Or.inr (List.mem_cons_self _ _)
        · rcases ih h with h | h
          · exact Or.inl h
          · exact Or.inr (List.mem_cons_of_mem _ h)

theorem mapInsertKey_sorted (k : ℕ) : ∀ {l : List ℕ},
    l.Sorted (· < ·) → (mapInsertKey k l).Sorted (· < ·) := by
  intro l
  induction l with
  | nil =>
    intro _
    simp [mapInsertKey]
  | cons x xs ih =>
    intro hs
    rw [List.sorted_cons] at hs
    simp only [mapInsertKey]
    split
    · rename_i hkx
      rw [List.sorted_cons]
      refine ⟨?_, ?_⟩
      · intro y hy
        rcases List.mem_cons.mp hy with rfl | hy
        · exact hkx
        · exact lt_trans hkx (hs.1 y hy)
      · rw [List.sorted_cons]
        exact hs
    · split
      · rw [List.sorted_cons]
        exact hs
      · rename_i hkx hke
        rw [List.sorted_cons]
        refine ⟨?_, ih hs.2⟩
        intro y hy
        rcases mem_mapInsertKey hy with rfl | hy
        · omega
        · exact hs.1 y hy

theorem observedPages_sorted (addrs : List ℕ) :
    (observedPages addrs).Sorted (· < ·) := by
  have hgen : ∀ (l : List ℕ) (acc : List ℕ), acc.Sorted (· < ·) →
      (l.foldl (fun ks x => mapInsertKey (page_round_down x) ks) acc).Sorted (· < ·) := by
    intro l
    induction l with
    | nil => intro acc h; exact h
    | cons a as ih =>
      intro acc h
      exact ih _ (mapInsertKey_sorted _ h)
  exact hgen addrs [] (by simp)

theorem mapFind_assignSlots : ∀ (keys : List ℕ) (base i : ℕ),
    keys.Sorted (· < ·) → i < keys.length →
    mapFind (assignSlots base keys) (keys.getD i 0) =
      some (base + DG_VIEW_PAGE_SIZE * i) := by
  intro keys
  induction keys with
  | nil =>
    intro base i _ hi
    simp at hi
  | cons k ks ih =>
    intro base i hs hi
    rw [List.sorted_cons] at hs
    cases i with
    | zero =>
      simp [assignSlots, mapFind, List.find?_cons]
    | succ i =>
      have hi' : i < ks.length := by simpa using hi
      have htgt : (k :: ks).getD (i + 1) 0 = ks.getD i 0 := by
        simp [List.getD_cons_succ]
      have hmem : ks.getD i 0 ∈ ks := by
        rw [List.getD_eq_getElem ks 0 hi']
        exact List.getElem_mem hi'
      have hne : ¬ (k = ks.getD i 0) := by
        have := hs.1 _ hmem
        omega
      rw [htgt]
      simp only [assignSlots, mapFind, List.find?_cons, decide_eq_false hne]
      have := ih (base + DG_VIEW_PAGE_SIZE) i hs.2 hi'
      simp only [mapFind] at this
      rw [this]
      congr 1
      simp only [DG_VIEW_PAGE_SIZE]
      ring

/-- C7: the pages observed by kept accesses, in ascending order, get
consecutive disjoint 4 KiB slots (`i`-th smallest page ↦ `i × 4096`),
and remapping preserves differences within a page. -/
theorem page_remap_laws (addrs : List ℕ) (a b : ℕ)
    (hpage : page_round_down a = page_round_down b)
    (hmem : page_round_down a ∈ observedPages addrs) :
    (observedPages addrs).Sorted (· < ·) ∧
    (∀ i, i < (observedPages addrs).length →
      mapFind (page_map_of (observedPages addrs)) ((observedPages addrs).getD i 0) =
        some (DG_VIEW_PAGE_SIZE * i)) ∧
    (∃ ra rb, remap_address (page_map_of (observedPages addrs)) a = some ra ∧
      remap_address (page_map_of (observedPages addrs)) b = some rb ∧
      (ra : ℤ) - (rb : ℤ) = (a : ℤ) - (b : ℤ)) ∧
    (∀ i j : ℕ, i ≠ j → ∀ x, ¬ (DG_VIEW_PAGE_SIZE * i ≤ x ∧
        x < DG_VIEW_PAGE_SIZE * i + DG_VIEW_PAGE_SIZE ∧
        DG_VIEW_PAGE_SIZE * j ≤ x ∧ x < DG_VIEW_PAGE_SIZE * j + DG_VIEW_PAGE_SIZE)) := by
  have hsorted := observedPages_sorted addrs
  have hfind : ∀ i, i < (observedPages addrs).length →
      mapFind (page_map_of (observedPages addrs)) ((observedPages addrs).getD i 0) =
        some (DG_VIEW_PAGE_SIZE * i) := by
    intro i hi
    have := mapFind_assignSlots (observedPages addrs) 0 i hsorted hi
    simpa [page_map_of] using this
  refine ⟨hsorted, hfind, ?_, ?_⟩
  · obtain ⟨i, hi, hgi⟩ := List.mem_iff_getElem.mp hmem
    have hgd : (observedPages addrs).getD i 0 = page_round_down a := by
      rw [List.getD_eq_getElem _ 0 hi]
      exact hgi
    have hv := hfind i hi
    rw [hgd] at hv
    refine ⟨(a - page_round_down a) + DG_VIEW_PAGE_SIZE * i,
            (b - page_round_down b) + DG_VIEW_PAGE_SIZE * i, ?_, ?_, ?_⟩
    · simp only [remap_address, hv]
      rfl
    · simp only [remap_address, ← hpage, hv]
      rfl
    · have h1 : page_round_down a = a - a % DG_VIEW_PAGE_SIZE := rfl
      have h2 : page_round_down b = b - b % DG_VIEW_PAGE_SIZE := rfl
      have h3 : a % DG_VIEW_PAGE_SIZE ≤ a := Nat.mod_le _ _
      have h4 : b % DG_VIEW_PAGE_SIZE ≤ b := Nat.mod_le _ _
      simp only [DG_VIEW_PAGE_SIZE] at *
      omega
  · intro i j hij x ⟨x1, x2, x3, x4⟩
    simp only [DG_VIEW_PAGE_SIZE] at *
    rcases Nat.lt_or_ge i j with h | h
    · omega
    · have : j < i := by omega
      omega

/-- C7 witness: the remap laws at a concrete access list. -/
theorem page_remap_laws_witness :
    (observedPages [5000, 4096, 20000]).Sorted (· < ·) ∧
    (∀ i, i < (observedPages [5000, 4096, 20000]).length →
      mapFind (page_map_of (observedPages [5000, 4096, 20000]))
          ((observedPages [5000, 4096, 20000]).getD i 0) =
        some (DG_VIEW_PAGE_SIZE * i)) ∧
    (∃ ra rb, remap_address (page_map_of (observedPages [5000, 4096, 20000])) 5000 =
        some ra ∧
      remap_address (page_map_of (observedPages [5000, 4096, 20000])) 4100 = some rb ∧
      (ra : ℤ) - (rb : ℤ) = (5000 : ℤ) - (4100 : ℤ)) ∧
    (∀ i j : ℕ, i ≠ j → ∀ x, ¬ (DG_VIEW_PAGE_SIZE * i ≤ x ∧
        x < DG_VIEW_PAGE_SIZE * i + DG_VIEW_PAGE_SIZE ∧
        DG_VIEW_PAGE_SIZE * j ≤ x ∧ x < DG_VIEW_PAGE_SIZE * j + DG_VIEW_PAGE_SIZE)) :=
  page_remap_laws [5000, 4096, 20000] 5000 4100 (by decide) (by decide)

/-! ## C2: content-error recovery in `load` -/

/-- C2 counterexample: after a valid header, a `TRACK_RANGE` record with
a zero-length body (too short for the `addr` word being extracted) makes
`load` exit 1: `extract_bytes` raises the *base* `record_parser_error`
("Record is too short"), which `load`'s second handler treats as fatal,
instead of discarding the record and continuing. -/
theorem load_too_short_fatal :
    load opts0 (headerBytes ++ [3, 0]) = .error (.exit1 .tooShort) := rfl

/-- C2 amended: an error raised as `record_parser_content_error` (record
too long, unterminated string, out-of-domain field or index, empty BB,
header after first) is logged, the record remainder discarded and
parsing continues with the next record; but a record whose body is too
short for the fields being extracted raises the base
`record_parser_error`, which `load` treats as fatal: the error is logged
and the analyzer exits 1. -/
theorem content_error_dispatch :
    (∀ (rp : RecordParser) (len : ℕ), rp.size - rp.offset < len →
      extract_bytes rp len = .error .tooShort) ∧
    RecErr.isContent .tooShort = false ∧
    (∀ opts st ty rp e st' rp' rp'',
      run_body opts st ty rp = .error (.pe e, st', rp') →
      e.isContent = true → rp'.discard = .ok rp'' →
      handle_record opts st ty rp = .ok (st', rp''.rest)) ∧
    (∀ opts st ty rp e st' rp',
      run_body opts st ty rp = .error (.pe e, st', rp') →
      e.isContent = false →
      handle_record opts st ty rp = .error (.exit1 e)) := by
  refine ⟨?_, rfl, ?_, ?_⟩
  · intro rp len h
    rw [extract_bytes, if_pos h]
  · intro opts st ty rp e st' rp' rp'' hrun hc hd
    simp [handle_record, hrun, hc, hd]
  · intro opts st ty rp e st' rp' hrun hc
    simp [handle_record, hrun, hc]

/-- C2 witness: the dispatch at concrete records (an unknown-type record
recovers; a too-short record is fatal). -/
theorem content_error_dispatch_witness :
    extract_bytes ⟨0, 0, []⟩ 8 = .error .tooShort ∧
    handle_record opts0 { initState with first := false } 99 ⟨0, 0, []⟩ =
      .ok ({ initState with first := false }, []) ∧
    handle_record opts0 { initState with first := false } 3 ⟨0, 0, []⟩ =
      .error (.exit1 .tooShort) :=
  ⟨content_error_dispatch.1 ⟨0, 0, []⟩ 8 (by decide),
   content_error_dispatch.2.2.1 opts0 { initState with first := false } 99
     ⟨0, 0, []⟩ .content { initState with first := false } ⟨0, 0, []⟩ ⟨0, 0, []⟩
     rfl rfl rfl,
   content_error_dispatch.2.2.2 opts0 { initState with first := false } 3
     ⟨0, 0, []⟩ .tooShort { initState with first := false } ⟨0, 0, []⟩ rfl rfl⟩

/-! ## C8: header-only trace -/

/-- C8: on a header-only trace, the record loop of `load` completes
with no stored BBRun, and `main` would print the no-accesses message
and return 0 — but before it can, the summary `printf` at the end of
`load` evaluates `bbruns.back()` on the empty vector, which has no
defined value (undefined behavior): `load_summary` is `none` and the
run terminates abnormally instead of exiting 0. -/
theorem load_header_only_summary_undefined :
    load opts0 headerBytes = .ok { initState with first := false } ∧
    ({ initState with first := false } : LoadState).bbruns = [] ∧
    load_summary ({ initState with first := false } : LoadState).bbruns = none ∧
    analyzer_result opts0 headerBytes = .abnormal :=
  ⟨rfl, rfl, rfl, rfl⟩

/-! ## C9: wordsize mismatch -/

/-- C9 counterexample: the mismatched header of `doubleHeaderTrace`
raises a *content* error, so it is discarded, `first` stays set and the
loop continues; the second, valid header is then validated afresh, and
the BBDEF, CONTEXT and BBRUN records after it are decoded normally —
under the matching word size — storing a BBRun.  `load` completes, the
summary is defined, and the analyzer proceeds to the visualisation:
decoding did not fail fatally and there is no nonzero exit,
contradicting the claim. -/
theorem load_wordsize_mismatch_recovered :
    load opts0 doubleHeaderTrace =
      .ok { first := false,
            bbdefs := [⟨[4096], [⟨1, 4, 0⟩]⟩],
            contexts := [⟨0, [4096]⟩],
            bbruns := [⟨0, 0, 0, [8192], [none]⟩],
            activeEvents := [], activeRanges := [],
            pageKeys := [8192], blockMap := [], blockStorage := [],
            iseq := 1, dseq := 1 } ∧
    analyzer_result opts0 doubleHeaderTrace = .visualize :=
  ⟨rfl, rfl⟩

/-- C9 amended: a header whose wordsize differs from the analyzer's
raises a content error, so the header is discarded and `first` stays
set; consequently no record body is ever decoded under the mismatched
word size.  But decoding does not fail fatally on every continuation:
a following non-HEADER record hits the fatal "did not find header"
`record_parser_error` and the analyzer exits 1, while a following valid
header is validated afresh and the trace then decodes normally (the
recovered case of the counterexample); and a mismatched-header trace
with no further records ends in the undefined `bbruns.back()` read of
the end-of-load summary (the C8 bug), terminating abnormally rather
than with a clean exit code. -/
theorem wordsize_mismatch_behavior :
    (∀ (st : LoadState) (ver en ws : ℕ) (more : List ℕ), ws ≠ 8 →
      load_header st DG_R_HEADER ⟨14, 0, dgMagic ++ [0, ver, en, ws] ++ more⟩ =
        .error (.pe .content, st, ⟨14, 14, more⟩)) ∧
    (∀ opts (st : LoadState) (ty : ℕ) (rp : RecordParser),
      st.first = true → ty ≠ DG_R_HEADER →
      handle_record opts st ty rp = .error (.exit1 .notHeader)) ∧
    load opts0 (headerBytesWS4 ++ [3, 0]) = .error (.exit1 .notHeader) ∧
    (load opts0 headerBytesWS4 = .ok initState ∧
      analyzer_result opts0 headerBytesWS4 = .abnormal) := by
  refine ⟨?_, ?_, rfl, rfl, rfl⟩
  · intro st ver en ws more hws
    simp only [load_header, DG_R_HEADER, if_neg (by omega : ¬ (0 : ℕ) ≠ 0),
      extract_string, extract_string_go, extract_byte, extract_bytes,
      RecordParser.remain, dgMagic, wordsize]
    norm_num
    intro h8
    exact absurd h8 hws
  · intro opts st ty rp hfirst hty
    simp [handle_record, run_body, load_header, hfirst, hty, RecErr.isContent]

/-- C9 witness: the amended behavior at concrete inputs. -/
theorem wordsize_mismatch_behavior_witness :
    load_header initState DG_R_HEADER ⟨14, 0, dgMagic ++ [0, 1, 0, 4] ++ []⟩ =
      .error (.pe .content, initState, ⟨14, 14, []⟩) ∧
    handle_record opts0 initState 3 ⟨0, 0, []⟩ = .error (.exit1 .notHeader) :=
  ⟨wordsize_mismatch_behavior.1 initState 1 0 4 [] (by omega),
   wordsize_mismatch_behavior.2.1 opts0 initState 3 ⟨0, 0, []⟩ rfl (by decide)⟩

/-! ## C1: nearest-access correctness -/

/-- The scan of one BBRun returns `none` only when every candidate is
the sentinel, and otherwise a kept candidate achieving the minimal
squared score among the first `n` candidates. -/
theorem nab_range_spec (q : Query) (bbd : Bbdef) (r : Bbrun) : ∀ n : ℕ,
    ((List.range n).foldl (nab_step q bbd r) none = none →
      ∀ j, j < n → r.addrs.getD j 0 = 0) ∧
    (∀ s i, (List.range n).foldl (nab_step q bbd r) none = some (s, i) →
      i < n ∧ r.addrs.getD i 0 ≠ 0 ∧ s = scoreSq q bbd r i ∧
      ∀ j, j < n → r.addrs.getD j 0 ≠ 0 → s ≤ scoreSq q bbd r j) := by
  intro n
  induction n with
  | zero =>
    constructor
    · intro _ j hj
      omega
    · intro s i h
      simp [List.range_zero] at h
  | succ n ih =>
    rw [List.range_succ, List.foldl_append]
    simp only [List.foldl_cons, List.foldl_nil]
    cases hprev : (List.range n).foldl (nab_step q bbd r) none with
    | none =>
      have hz := ih.1 hprev
      by_cases hnz : r.addrs.getD n 0 ≠ 0
      · constructor
        · intro h
          simp only [nab_step, if_pos hnz] at h
          exact absurd h (by simp)
        · intro s i h
          simp only [nab_step, if_pos hnz] at h
          simp only [Option.some.injEq, Prod.mk.injEq] at h
          obtain ⟨hs, hi⟩ := h
          subst hs
          subst hi
          refine ⟨by omega, hnz, rfl, ?_⟩
          intro j hj hjnz
          rcases Nat.lt_succ_iff_lt_or_eq.mp hj with hj | rfl
          · exact absurd (hz j hj) hjnz
          · exact le_refl _
      · constructor
        · intro _ j hj
          rcases Nat.lt_succ_iff_lt_or_eq.mp hj with hj | rfl
          · exact hz j hj
          · push_neg at hnz
            exact hnz
        · intro s i h
          simp only [nab_step, if_neg hnz] at h
          exact absurd h (by simp)
    | some bsbi =>
      obtain ⟨bs, bi⟩ := bsbi
      have hih := ih.2 bs bi hprev
      by_cases hnz : r.addrs.getD n 0 ≠ 0
      · by_cases hlt : scoreSq q bbd r n < bs
        · constructor
          · intro h
            simp only [nab_step, if_pos hnz, if_pos hlt] at h
            exact absurd h (by simp)
          · intro s i h
            simp only [nab_step, if_pos hnz, if_pos hlt] at h
            simp only [Option.some.injEq, Prod.mk.injEq] at h
            obtain ⟨hs, hi⟩ := h
            subst hs
            subst hi
            refine ⟨by omega, hnz, rfl, ?_⟩
            intro j hj hjnz
            rcases Nat.lt_succ_iff_lt_or_eq.mp hj with hj | rfl
            · exact le_of_lt (lt_of_lt_of_le hlt (hih.2.2.2 j hj hjnz))
            · exact le_refl _
        · constructor
          · intro h
            simp only [nab_step, if_pos hnz, if_neg hlt] at h
            exact absurd h (by simp)
          · intro s i h
            simp only [nab_step, if_pos hnz, if_neg hlt] at h
            simp only [Option.some.injEq, Prod.mk.injEq] at h
            obtain ⟨hs, hi⟩ := h
            subst hs
            subst hi
            refine ⟨by omega, hih.2.1, hih.2.2.1, ?_⟩
            intro j hj hjnz
            rcases Nat.lt_succ_iff_lt_or_eq.mp hj with hj | rfl
            · exact hih.2.2.2 j hj hjnz
            · exact le_of_not_lt hlt
      · constructor
        · intro h
          simp only [nab_step, if_neg hnz] at h
          exact absurd h (by simp)
        · intro s i h
          simp only [nab_step, if_neg hnz] at h
          simp only [Option.some.injEq, Prod.mk.injEq] at h
          obtain ⟨hs, hi⟩ := h
          subst hs
          subst hi
          refine ⟨by omega, hih.2.1, hih.2.2.1, ?_⟩
          intro j hj hjnz
          rcases Nat.lt_succ_iff_lt_or_eq.mp hj with hj | rfl
          · exact hih.2.2.2 j hj hjnz
          · push_neg at hnz
            exact absurd hnz hjnz

/-- Monotonicity of `iseq_start` over positions of a sorted `bbruns`
vector. -/
theorem sorted_iseq_getD_mono (bbruns : List Bbrun)
    (hs : bbruns.Sorted (fun r1 r2 => r1.iseq_start ≤ r2.iseq_start)) :
    ∀ i j, i ≤ j → j < bbruns.length →
      (bbruns.getD i defaultBbrun).iseq_start ≤
        (bbruns.getD j defaultBbrun).iseq_start := by
  intro i j hij hj
  rcases Nat.eq_or_lt_of_le hij with rfl | hlt
  · exact le_refl _
  · have hi : i < bbruns.length := lt_trans hlt hj
    rw [List.getD_eq_getElem _ _ hi, List.getD_eq_getElem _ _ hj]
    exact List.pairwise_iff_getElem.mp hs i j hi hj hlt

/-- Reading `back->iseq_start` at an in-range position. -/
theorem get?_iseq_start_eq (bbruns : List Bbrun) (k : ℕ) (hk : k < bbruns.length) :
    ((bbruns.get? k).map Bbrun.iseq_start).getD 0 =
      (bbruns.getD k defaultBbrun).iseq_start := by
  rw [List.getD_eq_getElem _ _ hk, List.get?_eq_get hk]
  simp [List.get_eq_getElem]

/-- Merging one BBRun's scan into the running best extends its
minimality from a covered position set `S` to `S` plus the scanned
BBRun. -/
theorem near_combine_spec (bbdefs : List Bbdef) (contexts : List Context)
    (bbruns : List Bbrun) (q : Query) (S : ℕ → Prop)
    (best : Option (ℚ × ℕ × ℕ)) (p0 : ℕ) (hp0 : p0 < bbruns.length)
    (hnone : best = none → ∀ p i, S p → ¬ keptAt bbruns p i)
    (hsome : ∀ s bp bi, best = some (s, bp, bi) →
      keptAt bbruns bp bi ∧ s = scoreAt bbdefs contexts bbruns q bp bi ∧
      ∀ p i, S p → keptAt bbruns p i →
        s ≤ scoreAt bbdefs contexts bbruns q p i) :
    (near_combine best p0 (nearest_access_bbrun q bbdefs contexts
        (bbruns.getD p0 defaultBbrun)) = none →
      ∀ p i, (S p ∨ p = p0) → ¬ keptAt bbruns p i) ∧
    (∀ s bp bi, near_combine best p0 (nearest_access_bbrun q bbdefs contexts
        (bbruns.getD p0 defaultBbrun)) = some (s, bp, bi) →
      keptAt bbruns bp bi ∧ s = scoreAt bbdefs contexts bbruns q bp bi ∧
      ∀ p i, (S p ∨ p = p0) → keptAt bbruns p i →
        s ≤ scoreAt bbdefs contexts bbruns q p i) := by
  have hnab := nab_range_spec q
    (bbdef_of bbdefs contexts (bbruns.getD p0 defaultBbrun))
    (bbruns.getD p0 defaultBbrun) ((bbruns.getD p0 defaultBbrun).addrs.length)
  cases hsub : nearest_access_bbrun q bbdefs contexts (bbruns.getD p0 defaultBbrun) with
  | none =>
    rw [nearest_access_bbrun] at hsub
    have hallz := hnab.1 hsub
    constructor
    · intro hres p i hSp hk
      simp only [near_combine] at hres
      rcases hSp with hSp | rfl
      · exact hnone hres p i hSp hk
      · exact hk.2.2 (hallz i hk.2.1)
    · intro s bp bi hres
      simp only [near_combine] at hres
      have h := hsome s bp bi hres
      refine ⟨h.1, h.2.1, ?_⟩
      intro p i hSp hk
      rcases hSp with hSp | rfl
      · exact h.2.2 p i hSp hk
      · exact absurd (hallz i hk.2.1) hk.2.2
  | some s0i0 =>
    obtain ⟨s0, i0⟩ := s0i0
    rw [nearest_access_bbrun] at hsub
    have hprops := hnab.2 s0 i0 hsub
    have hkept0 : keptAt bbruns p0 i0 := ⟨hp0, hprops.1, hprops.2.1⟩
    have hscore0 : s0 = scoreAt bbdefs contexts bbruns q p0 i0 := hprops.2.2.1
    have hmin0 : ∀ i, keptAt bbruns p0 i →
        s0 ≤ scoreAt bbdefs contexts bbruns q p0 i := by
      intro i hk
      exact hprops.2.2.2 i hk.2.1 hk.2.2
    cases best with
    | none =>
      constructor
      · intro hres
        simp only [near_combine] at hres
        exact absurd hres (by simp)
      · intro s bp bi hres
        simp only [near_combine, Option.some.injEq, Prod.mk.injEq] at hres
        obtain ⟨h1, h2, h3⟩ := hres
        subst h1
        subst h2
        subst h3
        refine ⟨hkept0, hscore0, ?_⟩
        intro p i hSp hk
        rcases hSp with hSp | rfl
        · exact absurd hk (hnone rfl p i hSp)
        · exact hmin0 i hk
    | some bb =>
      obtain ⟨bs, bp', bi'⟩ := bb
      have hb := hsome bs bp' bi' rfl
      by_cases hlt : s0 < bs
      · constructor
        · intro hres
          simp only [near_combine, if_pos hlt] at hres
          exact absurd hres (by simp)
        · intro s bp bi hres
          simp only [near_combine, if_pos hlt, Option.some.injEq,
            Prod.mk.injEq] at hres
          obtain ⟨h1, h2, h3⟩ := hres
          subst h1
          subst h2
          subst h3
          refine ⟨hkept0, hscore0, ?_⟩
          intro p i hSp hk
          rcases hSp with hSp | rfl
          · exact le_of_lt (lt_of_lt_of_le hlt (hb.2.2 p i hSp hk))
          · exact hmin0 i hk
      · constructor
        · intro hres
          simp only [near_combine, if_neg hlt] at hres
          exact absurd hres (by simp)
        · intro s bp bi hres
          simp only [near_combine, if_neg hlt, Option.some.injEq,
            Prod.mk.injEq] at hres
          obtain ⟨h1, h2, h3⟩ := hres
          subst h1
          subst h2
          subst h3
          refine ⟨hb.1, hb.2.1, ?_⟩
          intro p i hSp hk
          rcases hSp with hSp | rfl
          · exact hb.2.2 p i hSp hk
          · exact le_trans (le_of_not_lt hlt) (hmin0 i hk)

/-- Soundness of the forward prune: when
`forw->iseq_start > iseq + best_score` (in squared form), every kept
access at or after `forw` is at least `best_score` away. -/
theorem forward_prune (bbdefs : List Bbdef) (contexts : List Context)
    (bbruns : List Bbrun) (q : Query)
    (hsorted : bbruns.Sorted (fun r1 r2 => r1.iseq_start ≤ r2.iseq_start))
    (forw : ℕ) (bs : ℚ)
    (hd0 : 0 ≤ ((bbruns.getD forw defaultBbrun).iseq_start : ℚ) - q.iseq)
    (hdsq : bs < (((bbruns.getD forw defaultBbrun).iseq_start : ℚ) - q.iseq) ^ 2) :
    ∀ p i, forw ≤ p → keptAt bbruns p i →
      bs ≤ scoreAt bbdefs contexts bbruns q p i := by
  rintro p i hfp ⟨hp, hi, hnz⟩
  have h1 : (bbruns.getD forw defaultBbrun).iseq_start ≤
      (bbruns.getD p defaultBbrun).iseq_start :=
    sorted_iseq_getD_mono bbruns hsorted forw p hfp hp
  have h2 : (bbruns.getD p defaultBbrun).iseq_start ≤
      access_iseq (bbdef_of bbdefs contexts (bbruns.getD p defaultBbrun))
        (bbruns.getD p defaultBbrun) i :=
    Nat.le_add_right _ _
  have hdg : ((bbruns.getD forw defaultBbrun).iseq_start : ℚ) - q.iseq ≤
      ((access_iseq (bbdef_of bbdefs contexts (bbruns.getD p defaultBbrun))
        (bbruns.getD p defaultBbrun) i : ℚ)) - q.iseq := by
    have : ((bbruns.getD forw defaultBbrun).iseq_start : ℚ) ≤
        ((access_iseq (bbdef_of bbdefs contexts (bbruns.getD p defaultBbrun))
          (bbruns.getD p defaultBbrun) i : ℚ)) := by
      exact_mod_cast le_trans h1 h2
    linarith
  have hsq : (((bbruns.getD forw defaultBbrun).iseq_start : ℚ) - q.iseq) ^ 2 ≤
      (((access_iseq (bbdef_of bbdefs contexts (bbruns.getD p defaultBbrun))
        (bbruns.getD p defaultBbrun) i : ℚ)) - q.iseq) ^ 2 :=
    pow_le_pow_left₀ hd0 hdg 2
  have hscore : scoreAt bbdefs contexts bbruns q p i =
      ((((bbruns.getD p defaultBbrun).addrs.getD i 0 : ℚ) - q.addr) * q.ratio) ^ 2 +
      (((access_iseq (bbdef_of bbdefs contexts (bbruns.getD p defaultBbrun))
        (bbruns.getD p defaultBbrun) i : ℚ)) - q.iseq) ^ 2 := rfl
  rw [hscore]
  nlinarith [sq_nonneg ((((bbruns.getD p defaultBbrun).addrs.getD i 0 : ℚ) - q.addr) *
    q.ratio)]

/-- Soundness of the backward prune: when
`back->iseq_start ≤ iseq - best_score` (in squared form), every kept
access in a BBRun strictly before `back` is at least `best_score` away,
because its global iseq is below the *next* BBRun's `iseq_start` and
hence below `back`'s. -/
theorem backward_prune (bbdefs : List Bbdef) (contexts : List Context)
    (bbruns : List Bbrun) (q : Query)
    (hsorted : bbruns.Sorted (fun r1 r2 => r1.iseq_start ≤ r2.iseq_start))
    (hchain : ∀ p, p + 1 < bbruns.length → ∀ i,
      i < (bbruns.getD p defaultBbrun).addrs.length →
      (bbruns.getD p defaultBbrun).addrs.getD i 0 ≠ 0 →
      access_iseq (bbdef_of bbdefs contexts (bbruns.getD p defaultBbrun))
        (bbruns.getD p defaultBbrun) i < (bbruns.getD (p + 1) defaultBbrun).iseq_start)
    (back : ℕ) (hb : back < bbruns.length) (bs : ℚ)
    (he0 : 0 ≤ q.iseq - ((bbruns.getD back defaultBbrun).iseq_start : ℚ))
    (hesq : bs ≤ (q.iseq - ((bbruns.getD back defaultBbrun).iseq_start : ℚ)) ^ 2) :
    ∀ p i, p < back → keptAt bbruns p i →
      bs ≤ scoreAt bbdefs contexts bbruns q p i := by
  rintro p i hpb ⟨hp, hi, hnz⟩
  have hch := hchain p (by omega) i hi hnz
  have hmono : (bbruns.getD (p + 1) defaultBbrun).iseq_start ≤
      (bbruns.getD back defaultBbrun).iseq_start :=
    sorted_iseq_getD_mono bbruns hsorted (p + 1) back (by omega) hb
  -- the access's global iseq is strictly below back's iseq_start
  have hglt : access_iseq (bbdef_of bbdefs contexts (bbruns.getD p defaultBbrun))
      (bbruns.getD p defaultBbrun) i + 1 ≤
      (bbruns.getD back defaultBbrun).iseq_start := by omega
  set g : ℚ := (access_iseq (bbdef_of bbdefs contexts (bbruns.getD p defaultBbrun))
    (bbruns.getD p defaultBbrun) i : ℚ) with hg
  set t : ℚ := ((bbruns.getD back defaultBbrun).iseq_start : ℚ) with ht
  have hgt : g + 1 ≤ t := by
    rw [hg, ht]
    exact_mod_cast hglt
  have hu : (q.iseq - t) + 1 ≤ q.iseq - g := by linarith
  have husq : ((q.iseq - t) + 1) ^ 2 ≤ (q.iseq - g) ^ 2 :=
    pow_le_pow_left₀ (by linarith) hu 2
  have hescore : scoreAt bbdefs contexts bbruns q p i =
      ((((bbruns.getD p defaultBbrun).addrs.getD i 0 : ℚ) - q.addr) * q.ratio) ^ 2 +
      (g - q.iseq) ^ 2 := rfl
  rw [hescore]
  have hflip : (g - q.iseq) ^ 2 = (q.iseq - g) ^ 2 := by ring
  rw [hflip]
  nlinarith [sq_nonneg ((((bbruns.getD p defaultBbrun).addrs.getD i 0 : ℚ) - q.addr) *
    q.ratio)]

theorem near_forward_at_end (bbdefs : List Bbdef) (contexts : List Context)
    (bbruns : List Bbrun) (q : Query) (forw : ℕ) (best : Option (ℚ × ℕ × ℕ))
    (hf : ¬ forw < bbruns.length) :
    near_forward bbdefs contexts bbruns q forw best = (forw, best) := by
  simp [near_forward, hf]

theorem near_forward_none_eq (bbdefs : List Bbdef) (contexts : List Context)
    (bbruns : List Bbrun) (q : Query) (forw : ℕ) (hf : forw < bbruns.length) :
    near_forward bbdefs contexts bbruns q forw none =
      (forw + 1, near_combine none forw (nearest_access_bbrun q bbdefs contexts
        (bbruns.getD forw defaultBbrun))) := by
  simp [near_forward, hf]

theorem near_forward_stop_eq (bbdefs : List Bbdef) (contexts : List Context)
    (bbruns : List Bbrun) (q : Query) (forw : ℕ) (bs : ℚ) (bp bi : ℕ)
    (hf : forw < bbruns.length)
    (hstop : 0 ≤ ((bbruns.getD forw defaultBbrun).iseq_start : ℚ) - q.iseq ∧
      bs < (((bbruns.getD forw defaultBbrun).iseq_start : ℚ) - q.iseq) ^ 2) :
    near_forward bbdefs contexts bbruns q forw (some (bs, bp, bi)) =
      (bbruns.length, some (bs, bp, bi)) := by
  simp only [near_forward, if_pos hf]
  rw [if_pos (decide_eq_true hstop)]

theorem near_forward_go_eq (bbdefs : List Bbdef) (contexts : List Context)
    (bbruns : List Bbrun) (q : Query) (forw : ℕ) (bs : ℚ) (bp bi : ℕ)
    (hf : forw < bbruns.length)
    (hstop : ¬ (0 ≤ ((bbruns.getD forw defaultBbrun).iseq_start : ℚ) - q.iseq ∧
      bs < (((bbruns.getD forw defaultBbrun).iseq_start : ℚ) - q.iseq) ^ 2)) :
    near_forward bbdefs contexts bbruns q forw (some (bs, bp, bi)) =
      (forw + 1, near_combine (some (bs, bp, bi)) forw
        (nearest_access_bbrun q bbdefs contexts (bbruns.getD forw defaultBbrun))) := by
  simp only [near_forward, if_pos hf]
  rw [if_neg]
  simp only [decide_eq_true_eq]
  exact hstop

/-- The forward branch preserves the loop invariant, extending the
covered range. -/
theorem near_forward_inv (bbdefs : List Bbdef) (contexts : List Context)
    (bbruns : List Bbrun) (q : Query)
    (hsorted : bbruns.Sorted (fun r1 r2 => r1.iseq_start ≤ r2.iseq_start))
    (forw back : ℕ) (best : Option (ℚ × ℕ × ℕ))
    (hinv : NearInv bbdefs contexts bbruns q forw back best) :
    NearInv bbdefs contexts bbruns q
      (near_forward bbdefs contexts bbruns q forw best).1 back
      (near_forward bbdefs contexts bbruns q forw best).2 ∧
    (near_forward bbdefs contexts bbruns q forw best).1 ≤ bbruns.length ∧
    (forw < bbruns.length → forw < (near_forward bbdefs contexts bbruns q forw best).1) := by
  obtain ⟨hble, hfle, hcorner, hnone, hsome⟩ := hinv
  by_cases hf : forw < bbruns.length
  · have hcomb := near_combine_spec bbdefs contexts bbruns q
      (fun p => back ≤ p ∧ p < forw) best forw hf
      (fun hb p i hSp => hnone hb p i hSp.1 hSp.2)
      (fun s bp bi hb => by
        obtain ⟨h1, h2, h3⟩ := hsome s bp bi hb
        exact ⟨h1, h2, fun p i hSp hk => h3 p i hSp.1 hSp.2 hk⟩)
    cases best with
    | none =>
      rw [near_forward_none_eq bbdefs contexts bbruns q forw hf]
      refine ⟨⟨hble, by omega, ?_, ?_, ?_⟩, by omega, by omega⟩
      · intro hbl
        obtain ⟨h1, h2⟩ := hcorner hbl
        omega
      · intro hb p i h1 h2
        exact hcomb.1 hb p i (by omega)
      · intro s bp bi hb
        obtain ⟨h1, h2, h3⟩ := hcomb.2 s bp bi hb
        exact ⟨h1, h2, fun p i hp1 hp2 hk => h3 p i (by omega) hk⟩
    | some b =>
      obtain ⟨bs, bp0, bi0⟩ := b
      by_cases hstop : 0 ≤ ((bbruns.getD forw defaultBbrun).iseq_start : ℚ) - q.iseq ∧
          bs < (((bbruns.getD forw defaultBbrun).iseq_start : ℚ) - q.iseq) ^ 2
      · rw [near_forward_stop_eq bbdefs contexts bbruns q forw bs bp0 bi0 hf hstop]
        have hprune := forward_prune bbdefs contexts bbruns q hsorted forw bs
          hstop.1 hstop.2
        refine ⟨⟨hble, le_refl _, ?_, ?_, ?_⟩, le_refl _, by omega⟩
        · intro hbl
          exact absurd (hcorner hbl).1 (by simp)
        · intro hb
          exact absurd hb (by simp)
        · intro s bp bi hb
          simp only [Option.some.injEq, Prod.mk.injEq] at hb
          obtain ⟨h1, h2, h3⟩ := hb
          subst h1
          subst h2
          subst h3
          obtain ⟨h1, h2, h3⟩ := hsome bs bp0 bi0 rfl
          refine ⟨h1, h2, ?_⟩
          intro p i hp1 hp2 hk
          by_cases hpf : p < forw
          · exact h3 p i hp1 hpf hk
          · exact hprune p i (by omega) hk
      · rw [near_forward_go_eq bbdefs contexts bbruns q forw bs bp0 bi0 hf hstop]
        refine ⟨⟨hble, by omega, ?_, ?_, ?_⟩, by omega, by omega⟩
        · intro hbl
          obtain ⟨h1, h2⟩ := hcorner hbl
          omega
        · intro hb p i h1 h2
          exact hcomb.1 hb p i (by omega)
        · intro s bp bi hb
          obtain ⟨h1, h2, h3⟩ := hcomb.2 s bp bi hb
          exact ⟨h1, h2, fun p i hp1 hp2 hk => h3 p i (by omega) hk⟩
  · rw [near_forward_at_end bbdefs contexts bbruns q forw best hf]
    exact ⟨⟨hble, hfle, hcorner, hnone, hsome⟩, hfle, by omega⟩

theorem near_backward_at_begin (bbdefs : List Bbdef) (contexts : List Context)
    (bbruns : List Bbrun) (q : Query) (best : Option (ℚ × ℕ × ℕ)) :
    near_backward bbdefs contexts bbruns q 0 best = (0, best) := by
  simp [near_backward]

theorem near_backward_none_eq (bbdefs : List Bbdef) (contexts : List Context)
    (bbruns : List Bbrun) (q : Query) (back : ℕ) (hb : back ≠ 0) :
    near_backward bbdefs contexts bbruns q back none =
      (back - 1, near_combine none (back - 1) (nearest_access_bbrun q bbdefs contexts
        (bbruns.getD (back - 1) defaultBbrun))) := by
  simp [near_backward, hb]

theorem near_backward_stop_eq (bbdefs : List Bbdef) (contexts : List Context)
    (bbruns : List Bbrun) (q : Query) (back : ℕ) (bs : ℚ) (bp bi : ℕ)
    (hb : back ≠ 0)
    (hstop : 0 ≤ q.iseq - ((((bbruns.get? back).map Bbrun.iseq_start).getD 0 : ℕ) : ℚ) ∧
      bs ≤ (q.iseq - ((((bbruns.get? back).map Bbrun.iseq_start).getD 0 : ℕ) : ℚ)) ^ 2) :
    near_backward bbdefs contexts bbruns q back (some (bs, bp, bi)) =
      (0, some (bs, bp, bi)) := by
  simp only [near_backward]
  rw [if_pos hb, if_pos (decide_eq_true hstop)]

theorem near_backward_go_eq (bbdefs : List Bbdef) (contexts : List Context)
    (bbruns : List Bbrun) (q : Query) (back : ℕ) (bs : ℚ) (bp bi : ℕ)
    (hb : back ≠ 0)
    (hstop : ¬ (0 ≤ q.iseq - ((((bbruns.get? back).map Bbrun.iseq_start).getD 0 : ℕ) : ℚ) ∧
      bs ≤ (q.iseq - ((((bbruns.get? back).map Bbrun.iseq_start).getD 0 : ℕ) : ℚ)) ^ 2)) :
    near_backward bbdefs contexts bbruns q back (some (bs, bp, bi)) =
      (back - 1, near_combine (some (bs, bp, bi)) (back - 1)
        (nearest_access_bbrun q bbdefs contexts (bbruns.getD (back - 1) defaultBbrun))) := by
  simp only [near_backward]
  rw [if_pos hb, if_neg]
  simp only [decide_eq_true_eq]
  exact hstop

/-- The backward branch preserves the loop invariant, extending the
covered range, and strictly decreases the cursor when not at `begin`. -/
theorem near_backward_inv (bbdefs : List Bbdef) (contexts : List Context)
    (bbruns : List Bbrun) (q : Query)
    (hsorted : bbruns.Sorted (fun r1 r2 => r1.iseq_start ≤ r2.iseq_start))
    (hchain : ∀ p, p + 1 < bbruns.length → ∀ i,
      i < (bbruns.getD p defaultBbrun).addrs.length →
      (bbruns.getD p defaultBbrun).addrs.getD i 0 ≠ 0 →
      access_iseq (bbdef_of bbdefs contexts (bbruns.getD p defaultBbrun))
        (bbruns.getD p defaultBbrun) i < (bbruns.getD (p + 1) defaultBbrun).iseq_start)
    (forw back : ℕ) (best : Option (ℚ × ℕ × ℕ))
    (hinv : NearInv bbdefs contexts bbruns q forw back best) :
    NearInv bbdefs contexts bbruns q forw
      (near_backward bbdefs contexts bbruns q back best).1
      (near_backward bbdefs contexts bbruns q back best).2 ∧
    (back ≠ 0 → (near_backward bbdefs contexts bbruns q back best).1 < back) ∧
    (back = 0 → near_backward bbdefs contexts bbruns q back best = (back, best)) := by
  obtain ⟨hble, hfle, hcorner, hnone, hsome⟩ := hinv
  by_cases hb : back = 0
  · subst hb
    rw [near_backward_at_begin]
    exact ⟨⟨by omega, hfle, hcorner, hnone, hsome⟩, by omega, fun _ => rfl⟩
  · have hb1 : back - 1 < bbruns.length := by omega
    have hcomb := near_combine_spec bbdefs contexts bbruns q
      (fun p => back ≤ p ∧ p < forw) best (back - 1) hb1
      (fun hbn p i hSp => hnone hbn p i hSp.1 hSp.2)
      (fun s bp bi hbs => by
        obtain ⟨h1, h2, h3⟩ := hsome s bp bi hbs
        exact ⟨h1, h2, fun p i hSp hk => h3 p i hSp.1 hSp.2 hk⟩)
    cases best with
    | none =>
      rw [near_backward_none_eq bbdefs contexts bbruns q back hb]
      refine ⟨⟨by omega, hfle, ?_, ?_, ?_⟩, by omega, by omega⟩
      · intro hbl
        omega
      · intro hbn p i h1 h2
        exact hcomb.1 hbn p i (by omega)
      · intro s bp bi hbs
        obtain ⟨h1, h2, h3⟩ := hcomb.2 s bp bi hbs
        exact ⟨h1, h2, fun p i hp1 hp2 hk => h3 p i (by omega) hk⟩
    | some b =>
      obtain ⟨bs, bp0, bi0⟩ := b
      have hbacklt : back < bbruns.length := by
        rcases Nat.lt_or_ge back bbruns.length with h | h
        · exact h
        · have : back = bbruns.length := by omega
          exact absurd (hcorner this).1 (by simp)
      have hbst := get?_iseq_start_eq bbruns back hbacklt
      by_cases hstop : 0 ≤ q.iseq -
            ((((bbruns.get? back).map Bbrun.iseq_start).getD 0 : ℕ) : ℚ) ∧
          bs ≤ (q.iseq - ((((bbruns.get? back).map Bbrun.iseq_start).getD 0 : ℕ) : ℚ)) ^ 2
      · rw [near_backward_stop_eq bbdefs contexts bbruns q back bs bp0 bi0 hb hstop]
        rw [hbst] at hstop
        have hprune := backward_prune bbdefs contexts bbruns q hsorted hchain
          back hbacklt bs hstop.1 hstop.2
        refine ⟨⟨by omega, hfle, ?_, ?_, ?_⟩, by omega, by omega⟩
        · intro hbl
          omega
        · intro hbn
          exact absurd hbn (by simp)
        · intro s bp bi hbs
          simp only [Option.some.injEq, Prod.mk.injEq] at hbs
          obtain ⟨h1, h2, h3⟩ := hbs
          subst h1
          subst h2
          subst h3
          obtain ⟨h1, h2, h3⟩ := hsome bs bp0 bi0 rfl
          refine ⟨h1, h2, ?_⟩
          intro p i hp1 hp2 hk
          by_cases hpb : back ≤ p
          · exact h3 p i hpb hp2 hk
          · exact hprune p i (by omega) hk
      · rw [near_backward_go_eq bbdefs contexts bbruns q back bs bp0 bi0 hb hstop]
        refine ⟨⟨by omega, hfle, ?_, ?_, ?_⟩, by omega, by omega⟩
        · intro hbl
          omega
        · intro hbn p i h1 h2
          exact hcomb.1 hbn p i (by omega)
        · intro s bp bi hbs
          obtain ⟨h1, h2, h3⟩ := hcomb.2 s bp bi hbs
          exact ⟨h1, h2, fun p i hp1 hp2 hk => h3 p i (by omega) hk⟩

/-- The bidirectional loop, run with enough fuel from any state
satisfying the invariant, returns a kept access of globally minimal
squared score (or `none` only if no kept access exists at all). -/
theorem near_go_spec (bbdefs : List Bbdef) (contexts : List Context)
    (bbruns : List Bbrun) (q : Query)
    (hsorted : bbruns.Sorted (fun r1 r2 => r1.iseq_start ≤ r2.iseq_start))
    (hchain : ∀ p, p + 1 < bbruns.length → ∀ i,
      i < (bbruns.getD p defaultBbrun).addrs.length →
      (bbruns.getD p defaultBbrun).addrs.getD i 0 ≠ 0 →
      access_iseq (bbdef_of bbdefs contexts (bbruns.getD p defaultBbrun))
        (bbruns.getD p defaultBbrun) i < (bbruns.getD (p + 1) defaultBbrun).iseq_start) :
    ∀ fuel forw back best,
      (bbruns.length - forw) + back < fuel →
      NearInv bbdefs contexts bbruns q forw back best →
      (near_go bbdefs contexts bbruns q fuel forw back best = none →
        ∀ p i, ¬ keptAt bbruns p i) ∧
      (∀ s bp bi,
        near_go bbdefs contexts bbruns q fuel forw back best = some (s, bp, bi) →
        keptAt bbruns bp bi ∧ s = scoreAt bbdefs contexts bbruns q bp bi ∧
        ∀ p i, keptAt bbruns p i → s ≤ scoreAt bbdefs contexts bbruns q p i) := by
  intro fuel
  induction fuel with
  | zero =>
    intro forw back best hm hinv
    omega
  | succ fuel ih =>
    intro forw back best hm hinv
    by_cases hterm : forw = bbruns.length ∧ back = 0
    · have hng : near_go bbdefs contexts bbruns q (fuel + 1) forw back best = best := by
        simp only [near_go]
        rw [if_pos hterm]
      rw [hng]
      obtain ⟨hble, hfle, hcorner, hnone, hsome⟩ := hinv
      constructor
      · intro hres p i hk
        obtain ⟨hkp, hki, hknz⟩ := hk
        exact hnone hres p i (by omega) (by omega) ⟨hkp, hki, hknz⟩
      · intro s bp bi hres
        obtain ⟨h1, h2, h3⟩ := hsome s bp bi hres
        refine ⟨h1, h2, ?_⟩
        intro p i hk
        obtain ⟨hkp, hki, hknz⟩ := hk
        exact h3 p i (by omega) (by omega) ⟨hkp, hki, hknz⟩
    · have hng : near_go bbdefs contexts bbruns q (fuel + 1) forw back best =
          near_go bbdefs contexts bbruns q fuel
            (near_forward bbdefs contexts bbruns q forw best).1
            (near_backward bbdefs contexts bbruns q back
              (near_forward bbdefs contexts bbruns q forw best).2).1
            (near_backward bbdefs contexts bbruns q back
              (near_forward bbdefs contexts bbruns q forw best).2).2 := by
        simp only [near_go]
        rw [if_neg hterm]
      rw [hng]
      have hfle0 : forw ≤ bbruns.length := hinv.2.1
      obtain ⟨hinvF, hfle', hflt⟩ :=
        near_forward_inv bbdefs contexts bbruns q hsorted forw back best hinv
      obtain ⟨hinvB, hblt, hbeq⟩ :=
        near_backward_inv bbdefs contexts bbruns q hsorted hchain
          (near_forward bbdefs contexts bbruns q forw best).1 back
          (near_forward bbdefs contexts bbruns q forw best).2 hinvF
      have hm' : (bbruns.length -
            (near_forward bbdefs contexts bbruns q forw best).1) +
          (near_backward bbdefs contexts bbruns q back
            (near_forward bbdefs contexts bbruns q forw best).2).1 < fuel := by
        rcases Nat.lt_or_ge forw bbruns.length with hf | hf
        · have h1 := hflt hf
          by_cases hb0 : back = 0
          · rw [hbeq hb0]
            omega
          · have h3 := hblt hb0
            omega
        · have hfeq := near_forward_at_end bbdefs contexts bbruns q forw best
            (by omega)
          rw [hfeq]
          have hb0 : back ≠ 0 := fun h => hterm ⟨by omega, h⟩
          rw [hfeq] at hblt
          have h3 := hblt hb0
          omega
      exact ih _ _ _ hm' hinvB

/-- C1: on a loaded trace respecting the structural order invariants —
`bbruns` ordered by `iseq_start`, every realised access's global iseq
below the next BBRun's `iseq_start` (each BBRun's accesses belong to
instructions executed before the next BBRun starts), every stored BBRun
keeping at least one access (`keep_any`), and in-range indices — every
query with `ratio > 0` returns a kept access whose distance
`hypot((addr − addr*)·ratio, iseq − iseq*)` is minimal over all kept
accesses of all stored BBRuns (stated via the squared distance
`scoreAt`, an order-isomorphic quantity); in particular neither the
forward nor the backward pruning ever skips a closer access. -/
theorem nearest_access_minimal (bbdefs : List Bbdef) (contexts : List Context)
    (bbruns : List Bbrun) (q : Query)
    (_hratio : 0 < q.ratio) (_hiseq : 0 ≤ q.iseq)
    (hsorted : bbruns.Sorted (fun r1 r2 => r1.iseq_start ≤ r2.iseq_start))
    (hchain : ∀ p, p + 1 < bbruns.length → ∀ i,
      i < (bbruns.getD p defaultBbrun).addrs.length →
      (bbruns.getD p defaultBbrun).addrs.getD i 0 ≠ 0 →
      access_iseq (bbdef_of bbdefs contexts (bbruns.getD p defaultBbrun))
        (bbruns.getD p defaultBbrun) i < (bbruns.getD (p + 1) defaultBbrun).iseq_start)
    (hkeep : ∀ p, p < bbruns.length → ∃ i, keptAt bbruns p i)
    (hne : bbruns ≠ [])
    (_hvalid : ∀ r ∈ bbruns, r.context_index < contexts.length ∧
      (contexts.getD r.context_index ⟨0, []⟩).bbdef_index < bbdefs.length ∧
      r.addrs.length ≤ (bbdef_of bbdefs contexts r).accesses.length) :
    ∃ bp bi, nearest_access bbdefs contexts bbruns q = some (bp, bi) ∧
      keptAt bbruns bp bi ∧
      ∀ p i, keptAt bbruns p i →
        scoreAt bbdefs contexts bbruns q bp bi ≤
          scoreAt bbdefs contexts bbruns q p i := by
  have hstart : lower_bound_iseq bbruns (Int.toNat ⌊q.iseq⌋) ≤ bbruns.length := by
    rw [lower_bound_iseq]
    exact (List.takeWhile_sublist _).length_le
  have hinv0 : NearInv bbdefs contexts bbruns q
      (lower_bound_iseq bbruns (Int.toNat ⌊q.iseq⌋))
      (lower_bound_iseq bbruns (Int.toNat ⌊q.iseq⌋)) none := by
    refine ⟨hstart, hstart, fun h => ⟨rfl, h⟩, ?_, ?_⟩
    · intro _ p i h1 h2
      omega
    · intro s bp bi h
      exact absurd h (by simp)
  have hspec := near_go_spec bbdefs contexts bbruns q hsorted hchain
    (bbruns.length + 1) (lower_bound_iseq bbruns (Int.toNat ⌊q.iseq⌋))
    (lower_bound_iseq bbruns (Int.toNat ⌊q.iseq⌋)) none (by omega) hinv0
  cases hres : near_go bbdefs contexts bbruns q (bbruns.length + 1)
      (lower_bound_iseq bbruns (Int.toNat ⌊q.iseq⌋))
      (lower_bound_iseq bbruns (Int.toNat ⌊q.iseq⌋)) none with
  | none =>
    exfalso
    have hlen : 0 < bbruns.length := List.length_pos.mpr hne
    obtain ⟨i, hk⟩ := hkeep 0 hlen
    exact hspec.1 hres 0 i hk
  | some b =>
    obtain ⟨s, bp, bi⟩ := b
    obtain ⟨h1, h2, h3⟩ := hspec.2 s bp bi hres
    refine ⟨bp, bi, ?_, h1, ?_⟩
    · simp only [nearest_access]
      rw [hres]
      rfl
    · intro p i hk
      rw [← h2]
      exact h3 p i hk

/-- C1 witness: the single-load scenario (one BBDef with one READ, one
context, one BBRun with effective address `0x2000`), queried at
`(0x2000, 0)` with ratio 1. -/
theorem nearest_access_minimal_witness :
    ∃ bp bi, nearest_access [⟨[4096], [⟨1, 4, 0⟩]⟩] [⟨0, [4096]⟩]
        [⟨0, 0, 0, [8192], [none]⟩] ⟨8192, 0, 1⟩ = some (bp, bi) ∧
      keptAt [⟨0, 0, 0, [8192], [none]⟩] bp bi ∧
      ∀ p i, keptAt [⟨0, 0, 0, [8192], [none]⟩] p i →
        scoreAt [⟨[4096], [⟨1, 4, 0⟩]⟩] [⟨0, [4096]⟩]
            [⟨0, 0, 0, [8192], [none]⟩] ⟨8192, 0, 1⟩ bp bi ≤
          scoreAt [⟨[4096], [⟨1, 4, 0⟩]⟩] [⟨0, [4096]⟩]
            [⟨0, 0, 0, [8192], [none]⟩] ⟨8192, 0, 1⟩ p i :=
  nearest_access_minimal [⟨[4096], [⟨1, 4, 0⟩]⟩] [⟨0, [4096]⟩]
    [⟨0, 0, 0, [8192], [none]⟩] ⟨8192, 0, 1⟩
    (by norm_num) (by norm_num)
    (by simp)
    (by intro p hp
        simp only [List.length_singleton] at hp
        exact absurd hp (by omega))
    (by intro p hp
        simp only [List.length_singleton] at hp
        have : p = 0 := by omega
        subst this
        exact ⟨0, by decide, by decide, by decide⟩)
    (by simp)
    (by intro r hr
        simp only [List.mem_singleton] at hr
        subst hr
        exact ⟨by decide, by decide, by decide⟩)

end Datagrind
